import Mathlib

/-!
Verification of the Hindi BPE tokenizer (`src/hindi_bpe.py`).

This file is a shallow embedding of the class `HindiBPE` in Lean 4.
Python strings are modelled as `List Char` (one entry per code point, which
matches Python's indexing and `len`), Python `dict`s as association lists
with insertion-order semantics (new keys are appended, updates happen in
place, exactly like CPython dicts), and `collections.Counter` as such an
association list as well.  The two `while` loops of the source that are not
structurally recursive (`train_on_chunk`'s merge loop and the merge loop in
`encode`) are embedded with an explicit fuel parameter chosen at the call
site large enough that it can never be exhausted (each iteration of the
encode loop shortens the token list by one, and each iteration of the
training loop either consumes one vocabulary slot - at most `max_vocab_size`
of them - or deletes one entry of `pair_stats`, which between insertions
holds at most one entry per adjacent unit pair of the corpus); on the
mathematically unreachable fuel-exhaustion branch the loops return the
current state unchanged.  Python `float` arithmetic appears only in
`get_compression_ratio`; it is modelled with exact rationals (`ℚ`).
-/

set_option maxRecDepth 10000

namespace HindiBPE

/-- A Python string: one list entry per Unicode code point. -/
abbrev Wd := List Char

/-! ### Python dict / Counter semantics on association lists -/

/-- `d[k]` lookup in a Python dict (keys are unique, so first match). -/
def dictGet {α β : Type} [DecidableEq α] : List (α × β) → α → Option β
  | [], _ => none
  | (a, b) :: rest, k => if a = k then some b else dictGet rest k

/-- `k in d` membership test of a Python dict. -/
def dictContains {α β : Type} [DecidableEq α] (d : List (α × β)) (k : α) : Bool :=
  (dictGet d k).isSome

/-- `d[k] = v` assignment in a Python dict: an existing key keeps its
position, a new key is appended at the end (CPython insertion order). -/
def dictInsert {α β : Type} [DecidableEq α] : List (α × β) → α → β → List (α × β)
  | [], k, v => [(k, v)]
  | (a, b) :: rest, k, v => if a = k then (k, v) :: rest else (a, b) :: dictInsert rest k v

/-- `del d[k]` on a Python dict. -/
def dictErase {α β : Type} [DecidableEq α] : List (α × β) → α → List (α × β)
  | [], _ => []
  | (a, b) :: rest, k => if a = k then rest else (a, b) :: dictErase rest k

/-- `Counter(...)[k] += n`: an existing key is updated in place, a missing
key is appended with the bare increment (even when the increment is `0`,
CPython's `Counter.__setitem__` inserts the key). -/
def counterAdd {α : Type} [DecidableEq α] (c : List (α × Nat)) (k : α) (n : Nat) :
    List (α × Nat) :=
  match dictGet c k with
  | some m => dictInsert c k (m + n)
  | none => c ++ [(k, n)]

/-- `Counter(iterable)`: count occurrences, keys in first-occurrence order. -/
def counterOf {α : Type} [DecidableEq α] (l : List α) : List (α × Nat) :=
  l.foldl (fun c k =>
    match dictGet c k with
    | some m => dictInsert c k (m + 1)
    | none => c ++ [(k, 1)]) []

/-- Stable insertion used by `sortByCountDesc`: `x` goes in front of the
first entry whose count is not larger, so that among equal counts the
element that occurred earlier in the original list stays first. -/
def insertByCountDesc {α : Type} (x : α × Nat) : List (α × Nat) → List (α × Nat)
  | [] => [x]
  | y :: ys => if x.2 < y.2 then y :: insertByCountDesc x ys else x :: y :: ys

/-- Stable sort by count, descending - the order produced by
`Counter.most_common` (CPython's `sorted(..., reverse=True)` and
`heapq.nlargest` both keep insertion order among equal counts). -/
def sortByCountDesc {α : Type} : List (α × Nat) → List (α × Nat)
  | [] => []
  | x :: xs => insertByCountDesc x (sortByCountDesc xs)

/-- `Counter.most_common(n)`. -/
def mostCommon {α : Type} (c : List (α × Nat)) (n : Nat) : List (α × Nat) :=
  (sortByCountDesc c).take n

/-! ### Python whitespace, `str.split()` and `str.strip()` -/

/-- The characters Python's `str.split()` / `str.strip()` treat as
whitespace (`str.isspace`). -/
def isPySpace (c : Char) : Bool :=
  c.toNat = 0x9 ∨ c.toNat = 0xA ∨ c.toNat = 0xB ∨ c.toNat = 0xC ∨ c.toNat = 0xD ∨
  (0x1C ≤ c.toNat ∧ c.toNat ≤ 0x1F) ∨ c.toNat = 0x20 ∨ c.toNat = 0x85 ∨
  c.toNat = 0xA0 ∨ c.toNat = 0x1680 ∨ (0x2000 ≤ c.toNat ∧ c.toNat ≤ 0x200A) ∨
  c.toNat = 0x2028 ∨ c.toNat = 0x2029 ∨ c.toNat = 0x202F ∨ c.toNat = 0x205F ∨
  c.toNat = 0x3000

/-- Fuelled worker for `pySplit`; the fuel only needs to cover the length
of the string, since every step consumes at least one character. -/
def pySplitF : Nat → List Char → List Wd
  | 0, _ => []
  | _, [] => []
  | fuel + 1, c :: rest =>
    if isPySpace c then pySplitF fuel rest
    else
      ((c :: rest).takeWhile (fun d => ! isPySpace d)) ::
        pySplitF fuel ((c :: rest).dropWhile (fun d => ! isPySpace d))

/-- Python `text.split()` (no separator): split on runs of whitespace and
drop empty pieces. -/
def pySplit (s : List Char) : List Wd := pySplitF s.length s

/-- Python `text.strip()`. -/
def pyStrip (s : List Char) : List Char :=
  ((s.dropWhile isPySpace).reverse.dropWhile isPySpace).reverse

/-- `' '.join(ws)`. -/
def spaceJoin (ws : List Wd) : Wd := List.intercalate [' '] ws

/-! ### The tokenizer state (`HindiBPE.__init__`) -/

/-- The four control tokens (`self.special_tokens`). -/
def specialTokens : List Wd := ["<PAD>".toList, "<UNK>".toList, "<BOS>".toList, "<EOS>".toList]

/-- `self.word_end_token = "▁"` (U+2581). -/
def word_end_token : Wd := "▁".toList

/-- The mutable state of a `HindiBPE` instance. -/
structure Tok where
  max_vocab_size : Nat
  target_compression : ℚ
  vocab : List (Wd × Nat)
  inverse_vocab : List (Nat × Wd)
  bpe_ranks : List ((Wd × Wd) × Nat)
  cache : List (Wd × List Wd)
deriving DecidableEq

/-- `HindiBPE.__init__`: the four control tokens get ids 0-3, the inverse
map is built from them, and then the word-boundary token is appended with
id `len(vocab) = 4` to both maps. -/
def initTok (max_vocab_size : Nat) (target_compression : ℚ) : Tok :=
  let vocab0 : List (Wd × Nat) :=
    [("<PAD>".toList, 0), ("<UNK>".toList, 1), ("<BOS>".toList, 2), ("<EOS>".toList, 3)]
  let inverse0 : List (Nat × Wd) := vocab0.map (fun p => (p.2, p.1))
  let vocab1 := dictInsert vocab0 word_end_token vocab0.length
  let inverse1 :=
    dictInsert inverse0 ((dictGet vocab1 word_end_token).getD 0) word_end_token
  { max_vocab_size := max_vocab_size
    target_compression := target_compression
    vocab := vocab1
    inverse_vocab := inverse1
    bpe_ranks := []
    cache := [] }

/-! ### Grapheme segmentation (`HindiBPE._tokenize_word`) -/

/-- The regex `[ऀ-ॿ]` of line 35: any character of the Devanagari
block. -/
def isDevanagari (c : Char) : Bool := 0x900 ≤ c.toNat ∧ c.toNat ≤ 0x97F

/-- The regex `[ऀ-ःऺ-ॏॢ-ॣ]` of line 39: the
characters the scanner glues onto a Devanagari base character. -/
def isCombiningMark (c : Char) : Bool :=
  (0x900 ≤ c.toNat ∧ c.toNat ≤ 0x903) ∨
  (0x93A ≤ c.toNat ∧ c.toNat ≤ 0x94F) ∨
  (0x962 ≤ c.toNat ∧ c.toNat ≤ 0x963)

/-- Fuelled worker for the character scan of `_tokenize_word` (lines
31-47): every outer iteration consumes at least the opening character, so
fuel equal to the word length always suffices. -/
def tokenizeScanF : Nat → Wd → List Wd
  | 0, _ => []
  | _, [] => []
  | fuel + 1, c :: rest =>
    if isDevanagari c then
      (c :: rest.takeWhile isCombiningMark) ::
        tokenizeScanF fuel (rest.dropWhile isCombiningMark)
    else [c] :: tokenizeScanF fuel rest

/-- The character scan of `_tokenize_word`: a Devanagari character opens a
unit and absorbs the following `isCombiningMark` characters, any other
character becomes a one-character unit. -/
def tokenizeScan (w : Wd) : List Wd := tokenizeScanF w.length w

/-- `HindiBPE._tokenize_word` as a function of the cache and the
vocabulary; returns the unit list and the updated cache.  The cache is
consulted *before* the whole-word vocabulary check. -/
def tokenize_word (cache : List (Wd × List Wd)) (vocab : List (Wd × Nat)) (w : Wd) :
    List Wd × List (Wd × List Wd) :=
  match dictGet cache w with
  | some ts => (ts, cache)
  | none =>
    if dictContains vocab w then ([w], dictInsert cache w [w])
    else
      let tokens := tokenizeScan w
      (tokens, dictInsert cache w tokens)

/-! ### `HindiBPE.encode` -/

/-- Line 207: `pairs = [(tokens[i], tokens[i+1]) for i in range(len(tokens) - 1)]`. -/
def adjPairs (ts : List Wd) : List (Wd × Wd) := ts.zip ts.tail

/-- One step of the best-pair search of lines 216-221: the running best
`(best_pair, best_idx, best_rank)` (`none` plays the role of
`best_rank = float('inf')`) is replaced exactly when the current pair's
rank is strictly smaller (`rank < best_rank`). -/
def findBestUpd (q : Wd × Wd) (i : Nat) :
    Option Nat → Option ((Wd × Wd) × Nat × Nat) → Option ((Wd × Wd) × Nat × Nat)
  | none, b => b
  | some r, none => some (q, i, r)
  | some r, some (bq, bi, br) => if r < br then some (q, i, r) else some (bq, bi, br)

/-- Worker for the best-pair search of lines 212-221, carrying the running
best and the current index. -/
def findBestAux (bpe_ranks : List ((Wd × Wd) × Nat)) :
    List (Wd × Wd) → Nat → Option ((Wd × Wd) × Nat × Nat) → Option ((Wd × Wd) × Nat × Nat)
  | [], _, best => best
  | q :: rest, i, best =>
    findBestAux bpe_ranks rest (i + 1) (findBestUpd q i (dictGet bpe_ranks q) best)

/-- The best-pair search of `encode` (lines 212-221): the pair with the
lowest recorded rank, at its leftmost minimising index; `none` when no
present pair has a recorded rank. -/
def findBest (bpe_ranks : List ((Wd × Wd) × Nat)) (pairs : List (Wd × Wd)) :
    Option ((Wd × Wd) × Nat × Nat) :=
  findBestAux bpe_ranks pairs 0 none

/-- Lines 231-235: `tokens = tokens[:best_idx] + [merged] + tokens[best_idx + 2:]`. -/
def spliceAt (ts : List Wd) (idx : Nat) (merged : Wd) : List Wd :=
  ts.take idx ++ [merged] ++ ts.drop (idx + 2)

/-- The merge `while` loop of `encode` (lines 206-235).  Besides the final
token list it returns the value the Python variable `i` holds once the loop
has finished: the inner `for i, pair in enumerate(pairs)` of line 216
*shadows* the word index `i` of the outer `for i, word in enumerate(words)`
of line 193, leaving `i = len(pairs) - 1` of the last executed iteration
(`none` when the loop body never ran).  Each iteration shortens the token
list by exactly one, so fuel equal to the initial length always suffices;
the `if not pairs: break` of line 208 is unreachable (with more than one
token the pair list is nonempty) and is therefore not represented. -/
def mergeLoopF (vocab : List (Wd × Nat)) (bpe_ranks : List ((Wd × Wd) × Nat)) :
    Nat → List Wd → List Wd × Option Nat
  | 0, ts => (ts, none)
  | fuel + 1, ts =>
    if ts.length ≤ 1 then (ts, none)
    else
      let pairs := adjPairs ts
      match findBest bpe_ranks pairs with
      | none => (ts, some (pairs.length - 1))
      | some (p, idx, _) =>
        let merged := p.1 ++ p.2
        if dictContains vocab merged then
          let res := mergeLoopF vocab bpe_ranks fuel (spliceAt ts idx merged)
          (res.1, some (res.2.getD (pairs.length - 1)))
        else (ts, some (pairs.length - 1))

/-- The merge loop of `encode` started with sufficient fuel. -/
def mergeLoop (vocab : List (Wd × Nat)) (bpe_ranks : List ((Wd × Wd) × Nat))
    (ts : List Wd) : List Wd × Option Nat :=
  mergeLoopF vocab bpe_ranks ts.length ts

/-- Lines 238-247: map each final unit to its id; a unit absent from the
vocabulary falls back to per-character lookup and then to the `<UNK>` id. -/
def tokensToIds (vocab : List (Wd × Nat)) (ts : List Wd) : List Nat :=
  ts.flatMap (fun tok =>
    if dictContains vocab tok then [(dictGet vocab tok).getD 0]
    else tok.map (fun c =>
      if dictContains vocab [c] then (dictGet vocab [c]).getD 0
      else (dictGet vocab ("<UNK>".toList)).getD 0))

/-- The body of `for i, word in enumerate(words)` (lines 193-253) for the
words from position `widx` on; `total = len(words)`.  Returns the emitted
ids and the updated cache.  The boundary test of line 252 compares the
*current* value of the Python variable `i` - the word index, unless the
merge loop ran and clobbered it - with `len(words) - 1`. -/
def encodeLoop (vocab : List (Wd × Nat)) (bpe_ranks : List ((Wd × Wd) × Nat)) :
    List (Wd × List Wd) → List Wd → Nat → Nat → List Nat × List (Wd × List Wd)
  | cache, [], _, _ => ([], cache)
  | cache, w :: ws, widx, total =>
    if (pyStrip w).isEmpty then encodeLoop vocab bpe_ranks cache ws (widx + 1) total
    else
      let step : List Nat × Nat × List (Wd × List Wd) :=
        if dictContains vocab w then ([(dictGet vocab w).getD 0], widx, cache)
        else
          let tc := tokenize_word cache vocab w
          let ml := mergeLoop vocab bpe_ranks tc.1
          (tokensToIds vocab ml.1, ml.2.getD widx, tc.2)
      let boundary : List Nat :=
        if step.2.1 < total - 1 then [(dictGet vocab word_end_token).getD 0] else []
      let rest := encodeLoop vocab bpe_ranks step.2.2 ws (widx + 1) total
      (step.1 ++ boundary ++ rest.1, rest.2)

/-- `HindiBPE.encode`: the id sequence together with the updated instance
(only the grapheme cache can change). -/
def encode (t : Tok) (text : List Char) : List Nat × Tok :=
  if (pyStrip text).isEmpty then ([], t)
  else
    let words := pySplit text
    let r := encodeLoop t.vocab t.bpe_ranks t.cache words 0 words.length
    (r.1, { t with cache := r.2 })

/-! ### `HindiBPE.decode` -/

/-- The accumulation loop of `decode` (lines 262-284): `tokens` holds the
completed words, `current` the pieces of the word being built. -/
def decodeLoop (inverse_vocab : List (Nat × Wd)) :
    List Nat → List Wd → List Wd → List Wd
  | [], tokens, current =>
    if current.isEmpty then tokens else tokens ++ [current.flatten]
  | id :: rest, tokens, current =>
    let token := (dictGet inverse_vocab id).getD ("<UNK>".toList)
    if token ∈ specialTokens ∧ token ≠ word_end_token then
      decodeLoop inverse_vocab rest tokens current
    else if token = word_end_token then
      if current.isEmpty then decodeLoop inverse_vocab rest tokens current
      else decodeLoop inverse_vocab rest (tokens ++ [current.flatten]) []
    else decodeLoop inverse_vocab rest tokens (current ++ [token])

/-- `HindiBPE.decode`: ids back to text, words joined by single spaces. -/
def decode (t : Tok) (ids : List Nat) : List Char :=
  if ids.isEmpty then []
  else spaceJoin (decodeLoop t.inverse_vocab ids [] [])

/-! ### `HindiBPE.get_compression_ratio` -/

/-- `len(text.encode('utf-8'))`. -/
def utf8Len (s : List Char) : Nat := (s.map Char.utf8Size).sum

/-- `HindiBPE.get_compression_ratio`, with exact rational arithmetic in
place of Python floats.  The call encodes `text`, so it can grow the
grapheme cache; the updated instance is returned alongside the ratio. -/
def get_compression_ratio (t : Tok) (text : List Char) : ℚ × Tok :=
  if text.isEmpty then (0, t)
  else
    let original_size := utf8Len text
    let r := encode t text
    if r.1.isEmpty then (0, r.2)
    else ((original_size : ℚ) / (r.1.length : ℚ), r.2)

/-! ### `HindiBPE.train_on_chunk` -/

/-- The curated word list of lines 58-60, in source order. -/
def common_words : List Wd :=
  ["है".toList, "मैं".toList, "हूं".toList, "का".toList, "की".toList, "के".toList,
   "में".toList, "से".toList, "को".toList, "पर".toList, "और".toList, "हैं".toList,
   "था".toList, "थी".toList, "थे".toList, "नमस्ते".toList, "भारत".toList,
   "हिंदी".toList, "सीख".toList, "रहा".toList, "यह".toList, "एक".toList,
   "परीक्षण".toList, "वाक्य".toList, "विशाल".toList, "देश".toList, "मुझे".toList,
   "भाषा".toList, "बहुत".toList, "पसंद".toList]

/-- The two-line insertion used by both seed phases (lines 63-64 / 73-74):
`vocab[word] = len(vocab); inverse_vocab[vocab[word]] = word`. -/
def insertWord (vocab : List (Wd × Nat)) (inverse_vocab : List (Nat × Wd)) (w : Wd) :
    List (Wd × Nat) × List (Nat × Wd) :=
  let vocab' := dictInsert vocab w vocab.length
  (vocab', dictInsert inverse_vocab ((dictGet vocab' w).getD 0) w)

/-- Lines 61-64: insert the curated common words, subject to the cap. -/
def seedCommon (t : Tok) : Tok :=
  common_words.foldl (fun t w =>
    if ¬ dictContains t.vocab w ∧ t.vocab.length < t.max_vocab_size then
      let vi := insertWord t.vocab t.inverse_vocab w
      { t with vocab := vi.1, inverse_vocab := vi.2 }
    else t) t

/-- Lines 70-74: insert the most frequent whole words (multi-character,
new, below the cap). -/
def seedFrequent (t : Tok) (freqWords : List (Wd × Nat)) : Tok :=
  freqWords.foldl (fun t wf =>
    if 1 < wf.1.length ∧ ¬ dictContains t.vocab wf.1 ∧ t.vocab.length < t.max_vocab_size then
      let vi := insertWord t.vocab t.inverse_vocab wf.1
      { t with vocab := vi.1, inverse_vocab := vi.2 }
    else t) t

/-- Line 77: `[self._tokenize_word(word) for word in text.split()]`,
threading the grapheme cache left to right. -/
def tokenizePass (cache : List (Wd × List Wd)) (vocab : List (Wd × Nat)) :
    List Wd → List (List Wd) × List (Wd × List Wd)
  | [] => ([], cache)
  | w :: ws =>
    let r := tokenize_word cache vocab w
    let rest := tokenizePass r.2 vocab ws
    (r.1 :: rest.1, rest.2)

/-- Lines 84-92 and 139-146: the pair statistics.  For every word of at
least two units, every adjacent pair receives the word's weight
`word_freqs[' '.join(word)]` (`0` when the joined unit sequence is not a
key of the word counter, which is the case for every multi-unit
sequence - the joined string contains spaces while the counted words do
not; `Counter` still records the key, with count `0`). -/
def computePairStats (words : List (List Wd)) (word_freqs : List (Wd × Nat)) :
    List ((Wd × Wd) × Nat) :=
  words.foldl (fun stats w =>
    if w.length < 2 then stats
    else
      let f := (dictGet word_freqs (spaceJoin w)).getD 0
      (adjPairs w).foldl (fun stats p => counterAdd stats p f) stats) []

/-- The key `lambda x: (x[1], x[0])` of line 106 compares counts first and
then the pair itself; a pair of Python strings compares lexicographically
component by component.  `entryLt e f` is `key(e) < key(f)`. -/
def pairLt (p q : Wd × Wd) : Prop := p.1 < q.1 ∨ (p.1 = q.1 ∧ p.2 < q.2)

instance (p q : Wd × Wd) : Decidable (pairLt p q) := by
  unfold pairLt; infer_instance

/-- Strict comparison of two `pair_stats` items under the selection key of
line 106. -/
def entryLt (e f : (Wd × Wd) × Nat) : Prop := e.2 < f.2 ∨ (e.2 = f.2 ∧ pairLt e.1 f.1)

instance (e f : (Wd × Wd) × Nat) : Decidable (entryLt e f) := by
  unfold entryLt; infer_instance

/-- Line 106: `max(pair_stats.items(), key=lambda x: (x[1], x[0]))`.
Python's `max` keeps the current best on ties and replaces it only when the
key is strictly greater. -/
def selectBestPair (stats : List ((Wd × Wd) × Nat)) : Option ((Wd × Wd) × Nat) :=
  match stats with
  | [] => none
  | e :: rest => some (rest.foldl (fun b x => if entryLt b x then x else b) e)

/-- Lines 127-136: one left-to-right pass collapsing every non-overlapping
occurrence of `best_pair` into `new_token`. -/
def mergeWord (p : Wd × Wd) (new_token : Wd) : List Wd → List Wd
  | a :: b :: rest =>
    if a = p.1 ∧ b = p.2 then new_token :: mergeWord p new_token rest
    else a :: mergeWord p new_token (b :: rest)
  | l => l

/-- A training snapshot (lines 161-165): copies of `vocab`,
`inverse_vocab` and `bpe_ranks`. -/
def Snapshot := List (Wd × Nat) × List (Nat × Wd) × List ((Wd × Wd) × Nat)

/-- The mutable state of the training `while` loop (lines 104-171). -/
structure LoopState where
  tok : Tok
  words : List (List Wd)
  word_freqs : List (Wd × Nat)
  pair_stats : List ((Wd × Wd) × Nat)
  best_compression : ℚ
  best_state : Option Snapshot

/-- One iteration of the training loop; `none` when the loop guard
`len(self.vocab) < self.max_vocab_size and pair_stats` fails. -/
def trainStep (ls : LoopState) : Option LoopState :=
  if ls.tok.vocab.length < ls.tok.max_vocab_size ∧ ¬ ls.pair_stats.isEmpty then
    match selectBestPair ls.pair_stats with
    | none => none
    | some e =>
      let best_pair := e.1
      let new_token := best_pair.1 ++ best_pair.2
      if dictContains ls.tok.vocab new_token ∨ ls.tok.max_vocab_size ≤ ls.tok.vocab.length then
        some { ls with pair_stats := dictErase ls.pair_stats best_pair }
      else
        let token_id := ls.tok.vocab.length
        let vocab' := dictInsert ls.tok.vocab new_token token_id
        let inverse' := dictInsert ls.tok.inverse_vocab token_id new_token
        let ranks' := dictInsert ls.tok.bpe_ranks best_pair ls.tok.bpe_ranks.length
        let new_words := ls.words.map (fun w =>
          if w.length < 2 then w else mergeWord best_pair new_token w)
        let stats' := computePairStats new_words ls.word_freqs
        let tok' := { ls.tok with
          vocab := vocab', inverse_vocab := inverse', bpe_ranks := ranks' }
        if vocab'.length % 50 = 0 then
          let sample := spaceJoin ((new_words.take 2000).map List.flatten)
          let rc := get_compression_ratio tok' sample
          if ls.tok.target_compression ≤ rc.1 ∧ vocab'.length < ls.tok.max_vocab_size ∧
              ls.best_compression < rc.1 then
            some { tok := rc.2, words := new_words, word_freqs := ls.word_freqs,
                   pair_stats := stats', best_compression := rc.1,
                   best_state := some (vocab', inverse', ranks') }
          else
            some { tok := rc.2, words := new_words, word_freqs := ls.word_freqs,
                   pair_stats := stats', best_compression := ls.best_compression,
                   best_state := ls.best_state }
        else
          some { tok := tok', words := new_words, word_freqs := ls.word_freqs,
                 pair_stats := stats', best_compression := ls.best_compression,
                 best_state := ls.best_state }
  else none

/-- The training loop as iterated `trainStep`.  The fuel passed by
`train_on_chunk` dominates the number of iterations, so the fuel-exhaustion
branch is never taken. -/
def trainLoopF : Nat → LoopState → LoopState
  | 0, ls => ls
  | fuel + 1, ls =>
    match trainStep ls with
    | none => ls
    | some ls' => trainLoopF fuel ls'

/-- The tail of `train_on_chunk` (lines 103-183): run the training loop,
restore the best snapshot if one was recorded (lines 174-178), and compute
the final compression ratio on the full chunk (line 181, which can only
grow the cache). -/
def trainFinish (ls0 : LoopState) (fuel : Nat) (text : List Char) : Tok :=
  let lsf := trainLoopF fuel ls0
  let t4 :=
    match lsf.best_state with
    | some s => { lsf.tok with
        vocab := s.1, inverse_vocab := s.2.1, bpe_ranks := s.2.2 }
    | none => lsf.tok
  (get_compression_ratio t4 text).2

/-- `HindiBPE.train_on_chunk`.  The loop fuel is
`(cap + 1) * (total units + 2) + |initial pair_stats| + 1`: at most
`cap - len(vocab)` iterations insert a token, every other iteration deletes
one `pair_stats` entry, and a freshly recomputed `pair_stats` holds at most
one entry per adjacent unit pair of the corpus, a number that never exceeds
the total unit count (merges only shorten the unit sequences). -/
def train_on_chunk (t : Tok) (text : List Char) : Tok :=
  if (pyStrip text).isEmpty then t
  else
    let t1 := seedCommon t
    let word_freqs := counterOf (pySplit text)
    let max_word_tokens := t1.max_vocab_size / 10
    let t2 := seedFrequent t1 (mostCommon word_freqs max_word_tokens)
    let tw := tokenizePass t2.cache t2.vocab (pySplit text)
    let words := tw.1.filter (fun w => ¬ w.isEmpty)
    let t3 := { t2 with cache := tw.2 }
    if words.isEmpty then t3
    else
      let pair_stats := computePairStats words word_freqs
      if pair_stats.isEmpty then t3
      else
        let fuel := (t3.max_vocab_size + 1) * ((words.map List.length).sum + 2) +
          pair_stats.length + 1
        let ls0 : LoopState :=
          { tok := t3, words := words, word_freqs := word_freqs,
            pair_stats := pair_stats, best_compression := 0, best_state := none }
        trainFinish ls0 fuel text

/-! ### Reachable tokenizer states

The public operations that can mutate a `HindiBPE` instance are
`train_on_chunk` (vocabulary, ranks, cache) and `encode` /
`get_compression_ratio` (cache only); `decode` is pure. -/

/-- States reachable from a freshly constructed tokenizer through the
public API. -/
inductive Reach (max_vocab_size : Nat) (target_compression : ℚ) : Tok → Prop
  | init : Reach max_vocab_size target_compression (initTok max_vocab_size target_compression)
  | train (text : List Char) (t : Tok) :
      Reach max_vocab_size target_compression t →
      Reach max_vocab_size target_compression (train_on_chunk t text)
  | enc (text : List Char) (t : Tok) :
      Reach max_vocab_size target_compression t →
      Reach max_vocab_size target_compression (encode t text).2
  | ratio (text : List Char) (t : Tok) :
      Reach max_vocab_size target_compression t →
      Reach max_vocab_size target_compression (get_compression_ratio t text).2

/-! ### Association-list lemmas -/

theorem dictGet_dictInsert_self {α β : Type} [DecidableEq α] (d : List (α × β)) (k : α)
    (v : β) : dictGet (dictInsert d k v) k = some v := by
  induction d with
  | nil => simp [dictInsert, dictGet]
  | cons p rest ih =>
    by_cases h : p.1 = k
    · simp [dictInsert, dictGet, h]
    · simp [dictInsert, dictGet, h, ih]

theorem dictGet_dictInsert_ne {α β : Type} [DecidableEq α] (d : List (α × β)) (k k' : α)
    (v : β) (h : k' ≠ k) : dictGet (dictInsert d k v) k' = dictGet d k' := by
  have hkk : ¬ k = k' := fun he => h he.symm
  induction d with
  | nil => simp [dictInsert, dictGet, hkk]
  | cons p rest ih =>
    by_cases hp : p.1 = k
    · subst hp
      simp only [dictInsert, if_pos rfl, dictGet]
      rw [if_neg hkk, if_neg hkk]
    · simp only [dictInsert, if_neg hp, dictGet]
      by_cases hk' : p.1 = k'
      · simp [hk']
      · simp [hk', ih]

theorem dictInsert_of_get_none {α β : Type} [DecidableEq α] (d : List (α × β)) (k : α)
    (v : β) (h : dictGet d k = none) : dictInsert d k v = d ++ [(k, v)] := by
  induction d with
  | nil => simp [dictInsert]
  | cons p rest ih =>
    simp only [dictGet] at h
    by_cases hp : p.1 = k
    · simp [hp] at h
    · simp only [dictInsert, if_neg hp, List.cons_append, List.cons.injEq, true_and]
      exact ih (by simpa [hp] using h)

theorem dictGet_mem {α β : Type} [DecidableEq α] {d : List (α × β)} {k : α} {v : β}
    (h : dictGet d k = some v) : (k, v) ∈ d := by
  induction d with
  | nil => simp [dictGet] at h
  | cons p rest ih =>
    simp only [dictGet] at h
    by_cases hp : p.1 = k
    · rw [if_pos hp] at h
      have : p = (k, v) := by
        cases p
        simp_all
      rw [this]
      exact List.mem_cons_self _ _
    · rw [if_neg hp] at h
      exact List.mem_cons_of_mem _ (ih h)

theorem dictGet_none_iff {α β : Type} [DecidableEq α] (d : List (α × β)) (k : α) :
    dictGet d k = none ↔ k ∉ d.map Prod.fst := by
  induction d with
  | nil => simp [dictGet]
  | cons p rest ih =>
    simp only [dictGet, List.map_cons, List.mem_cons]
    by_cases hp : p.1 = k
    · simp [hp]
    · have : ¬ k = p.1 := fun he => hp he.symm
      simp [hp, ih, this]

theorem dictContains_iff {α β : Type} [DecidableEq α] (d : List (α × β)) (k : α) :
    dictContains d k = true ↔ k ∈ d.map Prod.fst := by
  rw [dictContains, Option.isSome_iff_ne_none, ne_eq, dictGet_none_iff]
  simp

theorem dictGet_isSome_of_mem {α β : Type} [DecidableEq α] {d : List (α × β)} {k : α}
    {v : β} (h : (k, v) ∈ d) : (dictGet d k).isSome := by
  induction d with
  | nil => simp at h
  | cons p rest ih =>
    rcases List.mem_cons.mp h with h | h
    · subst h
      simp [dictGet]
    · by_cases hp : p.1 = k
      · simp [dictGet, hp]
      · simpa [dictGet, hp] using ih h

/-! ### Fuel stability of the fuelled scanners -/

theorem length_dropWhile_le' {α : Type} (l : List α) (p : α → Bool) :
    (l.dropWhile p).length ≤ l.length := by
  induction l with
  | nil => simp
  | cons c rest ih =>
    rw [List.dropWhile]
    by_cases h : p c
    · simp only [h]
      exact ih.trans (Nat.le_succ _)
    · simp [h]

theorem tokenizeScanF_fuel (f g : Nat) (w : Wd) (hf : w.length ≤ f) (hg : w.length ≤ g) :
    tokenizeScanF f w = tokenizeScanF g w := by
  induction f generalizing g w with
  | zero =>
    have hw : w = [] := List.eq_nil_of_length_eq_zero (Nat.le_zero.mp hf)
    subst hw
    cases g <;> rfl
  | succ f ih =>
    match w, g with
    | [], 0 => rfl
    | [], g + 1 => rfl
    | c :: rest, 0 => simp at hg
    | c :: rest, g + 1 =>
      simp only [List.length_cons, Nat.add_le_add_iff_right] at hf hg
      simp only [tokenizeScanF]
      by_cases hc : isDevanagari c
      · simp only [if_pos hc]
        have hd : (rest.dropWhile isCombiningMark).length ≤ rest.length :=
          length_dropWhile_le' rest isCombiningMark
        rw [ih g (rest.dropWhile isCombiningMark) (hd.trans hf) (hd.trans hg)]
      · simp only [if_neg hc]
        rw [ih g rest hf hg]

theorem tokenizeScan_nil : tokenizeScan [] = [] := rfl

/-- The defining recursion of the scan, stated fuel-free. -/
theorem tokenizeScan_cons (c : Char) (rest : Wd) :
    tokenizeScan (c :: rest) =
      if isDevanagari c then
        (c :: rest.takeWhile isCombiningMark) ::
          tokenizeScan (rest.dropWhile isCombiningMark)
      else [c] :: tokenizeScan rest := by
  show tokenizeScanF (rest.length + 1) (c :: rest) = _
  simp only [tokenizeScanF, tokenizeScan]
  by_cases hc : isDevanagari c
  · simp only [if_pos hc]
    rw [tokenizeScanF_fuel rest.length (rest.dropWhile isCombiningMark).length
      (rest.dropWhile isCombiningMark) (length_dropWhile_le' rest isCombiningMark) le_rfl]
  · simp only [if_neg hc]

theorem dropWhile_not_space_cons_length (c : Char) (rest : List Char)
    (hc : ¬ isPySpace c = true) :
    ((c :: rest).dropWhile (fun d => ! isPySpace d)).length ≤ rest.length := by
  have hstep : (c :: rest).dropWhile (fun d => ! isPySpace d) =
      rest.dropWhile (fun d => ! isPySpace d) := by
    rw [List.dropWhile]
    simp [hc]
  rw [hstep]
  exact length_dropWhile_le' rest _

theorem pySplitF_fuel (f g : Nat) (s : List Char) (hf : s.length ≤ f) (hg : s.length ≤ g) :
    pySplitF f s = pySplitF g s := by
  induction f generalizing g s with
  | zero =>
    have hs : s = [] := List.eq_nil_of_length_eq_zero (Nat.le_zero.mp hf)
    subst hs
    cases g <;> rfl
  | succ f ih =>
    match s, g with
    | [], 0 => rfl
    | [], g + 1 => rfl
    | c :: rest, 0 => simp at hg
    | c :: rest, g + 1 =>
      simp only [List.length_cons, Nat.add_le_add_iff_right] at hf hg
      simp only [pySplitF]
      by_cases hc : isPySpace c
      · simp only [if_pos hc]
        exact ih g rest hf hg
      · simp only [if_neg hc]
        have hd := dropWhile_not_space_cons_length c rest hc
        rw [ih g ((c :: rest).dropWhile (fun d => ! isPySpace d)) (hd.trans hf)
          (hd.trans hg)]

/-- The defining recursion of `pySplit`, stated fuel-free. -/
theorem pySplit_cons (c : Char) (rest : List Char) :
    pySplit (c :: rest) =
      if isPySpace c then pySplit rest
      else ((c :: rest).takeWhile (fun d => ! isPySpace d)) ::
        pySplit ((c :: rest).dropWhile (fun d => ! isPySpace d)) := by
  show pySplitF (rest.length + 1) (c :: rest) = _
  simp only [pySplitF, pySplit]
  by_cases hc : isPySpace c
  · simp only [if_pos hc]
  · simp only [if_neg hc]
    have hd := dropWhile_not_space_cons_length c rest hc
    rw [pySplitF_fuel rest.length ((c :: rest).dropWhile (fun d => ! isPySpace d)).length
      ((c :: rest).dropWhile (fun d => ! isPySpace d)) hd le_rfl]

/-- The scanned units concatenate back to the word: segmentation loses no
characters. -/
theorem tokenizeScan_flatten_aux :
    ∀ (n : Nat) (w : Wd), w.length ≤ n → (tokenizeScan w).flatten = w := by
  intro n
  induction n with
  | zero =>
    intro w hw
    have : w = [] := List.eq_nil_of_length_eq_zero (Nat.le_zero.mp hw)
    subst this
    rfl
  | succ n ih =>
    intro w hw
    match w with
    | [] => rfl
    | c :: rest =>
      simp only [List.length_cons, Nat.add_le_add_iff_right] at hw
      rw [tokenizeScan_cons]
      by_cases hc : isDevanagari c
      · simp only [if_pos hc, List.flatten_cons]
        rw [ih (rest.dropWhile isCombiningMark)
          ((length_dropWhile_le' rest isCombiningMark).trans hw)]
        simp [List.takeWhile_append_dropWhile]
      · simp only [if_neg hc, List.flatten_cons]
        rw [ih rest hw]
        simp

theorem tokenizeScan_flatten (w : Wd) : (tokenizeScan w).flatten = w :=
  tokenizeScan_flatten_aux w.length w le_rfl

/-! ## Claim C1

`encode` does split its input on whitespace, but the word-boundary id is
*not* placed exactly between consecutive words: the inner
`for i, pair in enumerate(pairs)` of line 216 shadows the word index of
line 193, so whenever a word takes the segmentation/merge path the test
`if i < len(words) - 1` of line 252 compares the index of the last adjacent
pair instead of the word index.  The code's own comment on line 251 ("Add
word boundary token except for the last word") states the intended policy,
so this is a defect of the code, not of the claim. -/

/-- C1: concrete run showing the misplaced boundary token.  On a fresh
tokenizer, `encode "abc de"` encodes the OOV words as `<UNK>` ids
(`[1,1,1]` and `[1,1]`), omits the boundary id `4` between the two words
(for "abc" the clobbered `i` is `1 = len(words) - 1`), and appends it after
the last word (for "de" the clobbered `i` is `0 < 1`), returning
`[1,1,1,1,1,4]` where the claim requires `[1,1,1,4,1,1]`. -/
theorem C1_boundary_token_misplaced :
    (encode (initTok 100 (16/5)) "abc de".toList).1 = [1, 1, 1, 1, 1, 4] ∧
    dictGet (initTok 100 (16/5)).vocab word_end_token = some 4 ∧
    ([1, 1, 1, 1, 1, 4].getLast? = some 4 ∧ [1, 1, 1, 1, 1, 4] ≠ [1, 1, 1, 4, 1, 1]) := by
  refine ⟨by decide, by decide, by decide, by decide⟩

/-! ## Claim C4

The scanner's continuation class (line 39) is exactly
U+0900-U+0903, U+093A-U+094F, U+0962-U+0963.  The Vedic tone signs
U+0951-U+0954, which the claim lists among the absorbed combining marks,
are *not* in that class: a Vedic sign following a base character closes the
unit and (being itself in the Devanagari block) opens a unit of its own. -/

/-- The Devanagari Vedic tone signs (U+0951-U+0954), combining marks the
claim says are absorbed into the preceding base character's unit. -/
def isVedicSign (c : Char) : Bool := 0x951 ≤ c.toNat ∧ c.toNat ≤ 0x954

/-- C4 counterexample: `'॑'` (U+0951, a Vedic sign) immediately follows
the Devanagari base `'क'`, yet the scan emits it as a separate unit,
`["क", "॑"]`, not the absorbed `["क॑"]` the claim requires. -/
theorem C4_vedic_sign_not_absorbed :
    isDevanagari 'क' = true ∧ isVedicSign '॑' = true ∧
    isCombiningMark '॑' = false ∧
    tokenizeScan "क॑".toList = [['क'], ['॑']] ∧
    tokenizeScan "क॑".toList ≠ ["क॑".toList] := by
  refine ⟨by decide, by decide, by decide, by decide, by decide⟩

/-- C4 (amended): the scan is never empty on nonempty input and loses no
characters; a Devanagari-block character opens a unit absorbing exactly
the immediately following characters of the class U+0900-U+0903,
U+093A-U+094F, U+0962-U+0963 (`isCombiningMark` - vowel signs, virama,
nukta, candrabindu, anusvara, visarga, but *not* the Vedic signs
U+0951-U+0954), while any other character becomes a one-character unit;
and segmenting "है" yields the single unit `["है"]`. -/
theorem C4_segmentation_amended (w : Wd) (hw : w ≠ []) :
    tokenizeScan w ≠ [] ∧
    (tokenizeScan w).flatten = w ∧
    (∀ (c : Char) (rest : Wd),
      tokenizeScan (c :: rest) =
        if isDevanagari c then
          (c :: rest.takeWhile isCombiningMark) ::
            tokenizeScan (rest.dropWhile isCombiningMark)
        else [c] :: tokenizeScan rest) ∧
    tokenizeScan "है".toList = ["है".toList] := by
  refine ⟨?_, tokenizeScan_flatten w, tokenizeScan_cons, by decide⟩
  match w with
  | [] => exact absurd rfl hw
  | c :: rest =>
    rw [tokenizeScan_cons]
    by_cases hc : isDevanagari c <;> simp [hc]

/-- C4 witness: the amended theorem applied to the concrete word "है". -/
theorem C4_segmentation_amended_witness :
    "है".toList ≠ ([] : Wd) ∧ tokenizeScan "है".toList = ["है".toList] :=
  ⟨by decide, (C4_segmentation_amended "है".toList (by decide)).2.2.2⟩

/-! ## Claim C2

The grapheme cache is consulted *before* the whole-word vocabulary check
(line 22 precedes line 26), so a word cached while absent from the
vocabulary keeps its stale segmentation after the word is later inserted
into the vocabulary: the claimed coherence invariant fails at a reachable
state. -/

/-- The segmenter's pure function as the spec describes it (GraphemeSegmenter
without the cache): the whole-word vocabulary short-circuit, else the
character scan. -/
def segmenterPureFn (vocab : List (Wd × Nat)) (w : Wd) : List Wd :=
  if dictContains vocab w then [w] else tokenizeScan w

/-- The state reached by `encode "कख"` (which caches the segmentation
`["क", "ख"]` of the then-OOV word "कख") followed by
`train_on_chunk "कख"` (whose seed phase inserts "कख" into the
vocabulary as a frequent whole word without touching the cache). -/
def c2State : Tok :=
  train_on_chunk (encode (initTok 100 (16/5)) "कख".toList).2 "कख".toList

/-- C2 counterexample: at the reachable state `c2State` the cached unit
sequence of "कख" is the stale `["क", "ख"]`, while the segmenter's pure
function against the current vocabulary returns the single-element
`["कख"]` that the short-circuit prescribes. -/
theorem C2_cache_divergence :
    Reach 100 (16/5) c2State ∧
    dictGet c2State.cache "कख".toList = some [['क'], ['ख']] ∧
    dictContains c2State.vocab "कख".toList = true ∧
    segmenterPureFn c2State.vocab "कख".toList = ["कख".toList] ∧
    ([['क'], ['ख']] : List Wd) ≠ ["कख".toList] :=
  ⟨Reach.train _ _ (Reach.enc _ _ Reach.init), by decide, by decide, by decide, by decide⟩

/-- C2 (amended): the cache is coherent with the segmenter's pure function
*at entry-creation time* only - a cache miss computes the pure segmentation
against the current vocabulary and stores exactly it, while a cache hit
returns the stored sequence verbatim, regardless of any vocabulary change
since the entry was created (so a word cached before entering the
vocabulary keeps returning its old segmentation, not `[word]`). -/
theorem C2_cache_amended (cache : List (Wd × List Wd)) (vocab : List (Wd × Nat)) (w : Wd) :
    (dictGet cache w = none →
      tokenize_word cache vocab w =
        (segmenterPureFn vocab w, dictInsert cache w (segmenterPureFn vocab w))) ∧
    (∀ ts, dictGet cache w = some ts → tokenize_word cache vocab w = (ts, cache)) := by
  constructor
  · intro h
    unfold tokenize_word segmenterPureFn
    rw [h]
    by_cases hv : dictContains vocab w <;> simp [hv]
  · intro ts h
    unfold tokenize_word
    rw [h]

/-- C2 witness: the amended theorem evaluated on an empty cache and the
fresh vocabulary at the word "कख". -/
theorem C2_cache_amended_witness :
    tokenize_word [] (initTok 100 (16/5)).vocab "कख".toList =
      (segmenterPureFn (initTok 100 (16/5)).vocab "कख".toList,
        dictInsert [] "कख".toList
          (segmenterPureFn (initTok 100 (16/5)).vocab "कख".toList)) :=
  (C2_cache_amended [] (initTok 100 (16/5)).vocab "कख".toList).1 (by decide)

/-! ## Claim C9

`decode` drops every id whose token (the inverse-vocabulary entry, or the
literal `"<UNK>"` string when the id is missing) is a special token other
than the boundary token. -/

/-- The ids `decode` skips (line 269): the looked-up token - defaulting to
the literal `"<UNK>"` on a missing id - is a special token other than the
word-boundary token. -/
def isSkippedId (inverse_vocab : List (Nat × Wd)) (id : Nat) : Bool :=
  let token := (dictGet inverse_vocab id).getD ("<UNK>".toList)
  decide (token ∈ specialTokens ∧ token ≠ word_end_token)

theorem decodeLoop_filter (inverse_vocab : List (Nat × Wd)) (ids : List Nat)
    (tokens current : List Wd) :
    decodeLoop inverse_vocab ids tokens current =
      decodeLoop inverse_vocab (ids.filter (fun id => ! isSkippedId inverse_vocab id))
        tokens current := by
  induction ids generalizing tokens current with
  | nil => rfl
  | cons id rest ih =>
    by_cases h : isSkippedId inverse_vocab id = true
    · have hskip : ((dictGet inverse_vocab id).getD ("<UNK>".toList)) ∈ specialTokens ∧
          ((dictGet inverse_vocab id).getD ("<UNK>".toList)) ≠ word_end_token := by
        simpa [isSkippedId] using h
      rw [List.filter_cons_of_neg (by simp [h])]
      simp only [decodeLoop, if_pos hskip]
      exact ih tokens current
    · have hskip : ¬ (((dictGet inverse_vocab id).getD ("<UNK>".toList)) ∈ specialTokens ∧
          ((dictGet inverse_vocab id).getD ("<UNK>".toList)) ≠ word_end_token) := by
        simpa [isSkippedId] using h
      rw [List.filter_cons_of_pos (by simp [h])]
      simp only [decodeLoop, if_neg hskip]
      by_cases hb : ((dictGet inverse_vocab id).getD ("<UNK>".toList)) = word_end_token
      · simp only [if_pos hb]
        by_cases hc : current.isEmpty <;> simp only [if_pos, if_neg, hc, ih]
      · simp only [if_neg hb, ih]

/-- C9: `decode` skips exactly the ids of `isSkippedId` - dropping them
from the input changes nothing; an id absent from the inverse vocabulary
falls back to the literal `"<UNK>"` token and is therefore skipped; a
sequence of only skipped ids (in particular, only reserved special ids
other than the boundary id) decodes to the empty string, as does the empty
sequence. -/
theorem C9_decode_special_ids (t : Tok) :
    (∀ ids, decode t ids =
      decode t (ids.filter (fun id => ! isSkippedId t.inverse_vocab id))) ∧
    (∀ id, dictGet t.inverse_vocab id = none → isSkippedId t.inverse_vocab id = true) ∧
    (∀ ids, (∀ id ∈ ids, isSkippedId t.inverse_vocab id = true) → decode t ids = []) ∧
    decode t [] = [] := by
  have hfilter : ∀ ids, decode t ids =
      decode t (ids.filter (fun id => ! isSkippedId t.inverse_vocab id)) := by
    intro ids
    unfold decode
    match ids with
    | [] => rfl
    | id :: rest =>
      simp only [List.isEmpty_cons, if_neg]
      rw [decodeLoop_filter]
      by_cases hf : ((id :: rest).filter (fun id => ! isSkippedId t.inverse_vocab id)) = []
      · rw [hf]
        rfl
      · have h' : ((id :: rest).filter
            (fun id => ! isSkippedId t.inverse_vocab id)).isEmpty = false := by
          simpa [List.isEmpty_iff] using hf
        simp [h']
  refine ⟨hfilter, ?_, ?_, rfl⟩
  · intro id h
    simp [isSkippedId, h, specialTokens, word_end_token]
  · intro ids hall
    have : ids.filter (fun id => ! isSkippedId t.inverse_vocab id) = [] := by
      rw [List.filter_eq_nil_iff]
      intro id hid
      simp [hall id hid]
    rw [hfilter ids, this]
    rfl

/-- C9 witness: a sequence of the four reserved control ids plus an id
missing from the inverse vocabulary decodes to the empty string. -/
theorem C9_decode_special_ids_witness :
    decode (initTok 100 (16/5)) [0, 1, 2, 3, 999] = [] :=
  (C9_decode_special_ids (initTok 100 (16/5))).2.2.1 [0, 1, 2, 3, 999] (by decide)

/-! ## Claim C5

The selection key of line 106 is the pair `(count, pair)` under Python's
tuple/string comparison, i.e. the lexicographic product of the count order
and the lexicographic order on pairs of strings.  `entryLt` is a strict
linear order on `pair_stats` items, which makes the maximum unique as a
value and the selection independent of the iteration order of the dict. -/

theorem pairLt_irrefl (p : Wd × Wd) : ¬ pairLt p p := by
  simp [pairLt]

theorem pairLt_trans {p q r : Wd × Wd} (h1 : pairLt p q) (h2 : pairLt q r) : pairLt p r := by
  rcases h1 with h1 | ⟨h1e, h1⟩ <;> rcases h2 with h2 | ⟨h2e, h2⟩
  · exact Or.inl (h1.trans h2)
  · exact Or.inl (h2e ▸ h1)
  · exact Or.inl (h1e ▸ h2)
  · exact Or.inr ⟨h1e.trans h2e, h1.trans h2⟩

theorem pairLt_trichotomy (p q : Wd × Wd) : pairLt p q ∨ p = q ∨ pairLt q p := by
  rcases lt_trichotomy p.1 q.1 with h | h | h
  · exact Or.inl (Or.inl h)
  · rcases lt_trichotomy p.2 q.2 with h2 | h2 | h2
    · exact Or.inl (Or.inr ⟨h, h2⟩)
    · exact Or.inr (Or.inl (Prod.ext h h2))
    · exact Or.inr (Or.inr (Or.inr ⟨h.symm, h2⟩))
  · exact Or.inr (Or.inr (Or.inl h))

theorem entryLt_irrefl (e : (Wd × Wd) × Nat) : ¬ entryLt e e := by
  simp [entryLt, pairLt_irrefl]

theorem entryLt_trans {e f g : (Wd × Wd) × Nat} (h1 : entryLt e f) (h2 : entryLt f g) :
    entryLt e g := by
  rcases h1 with h1 | ⟨h1e, h1⟩ <;> rcases h2 with h2 | ⟨h2e, h2⟩
  · exact Or.inl (h1.trans h2)
  · exact Or.inl (h2e ▸ h1)
  · exact Or.inl (h1e ▸ h2)
  · exact Or.inr ⟨h1e.trans h2e, pairLt_trans h1 h2⟩

theorem entryLt_trichotomy (e f : (Wd × Wd) × Nat) : entryLt e f ∨ e = f ∨ entryLt f e := by
  rcases lt_trichotomy e.2 f.2 with h | h | h
  · exact Or.inl (Or.inl h)
  · rcases pairLt_trichotomy e.1 f.1 with h1 | h1 | h1
    · exact Or.inl (Or.inr ⟨h, h1⟩)
    · exact Or.inr (Or.inl (Prod.ext h1 h))
    · exact Or.inr (Or.inr (Or.inr ⟨h.symm, h1⟩))
  · exact Or.inr (Or.inr (Or.inl h))

theorem selFold_mem (rest : List ((Wd × Wd) × Nat)) (e : (Wd × Wd) × Nat) :
    rest.foldl (fun b x => if entryLt b x then x else b) e = e ∨
      rest.foldl (fun b x => if entryLt b x then x else b) e ∈ rest := by
  induction rest generalizing e with
  | nil => exact Or.inl rfl
  | cons y ys ih =>
    simp only [List.foldl_cons]
    rcases ih (if entryLt e y then y else e) with h | h
    · rw [h]
      by_cases hy : entryLt e y
      · rw [if_pos hy]
        exact Or.inr (List.mem_cons_self _ _)
      · rw [if_neg hy]
        exact Or.inl rfl
    · exact Or.inr (List.mem_cons_of_mem _ h)

theorem selFold_max (rest : List ((Wd × Wd) × Nat)) (e : (Wd × Wd) × Nat) :
    ∀ x, (x = e ∨ x ∈ rest) →
      ¬ entryLt (rest.foldl (fun b x => if entryLt b x then x else b) e) x := by
  induction rest generalizing e with
  | nil =>
    intro x hx
    rcases hx with rfl | hx
    · exact entryLt_irrefl x
    · exact absurd hx (List.not_mem_nil x)
  | cons y ys ih =>
    intro x hx
    simp only [List.foldl_cons]
    by_cases hy : entryLt e y
    · rw [if_pos hy]
      rcases hx with heq | hx
      · subst heq
        intro hlt
        exact ih y y (Or.inl rfl) (entryLt_trans hlt hy)
      · rcases List.mem_cons.mp hx with heq | hx
        · subst heq
          exact ih x x (Or.inl rfl)
        · exact ih y x (Or.inr hx)
    · rw [if_neg hy]
      rcases hx with heq | hx
      · subst heq
        exact ih x x (Or.inl rfl)
      · rcases List.mem_cons.mp hx with heq | hx
        · subst heq
          intro hlt
          rcases entryLt_trichotomy e x with h | h | h
          · exact hy h
          · exact ih e e (Or.inl rfl) (h.symm ▸ hlt)
          · exact ih e e (Or.inl rfl) (entryLt_trans hlt h)
        · exact ih e x (Or.inr hx)

theorem selectBestPair_eq_none (stats : List ((Wd × Wd) × Nat)) :
    selectBestPair stats = none ↔ stats = [] := by
  cases stats <;> simp [selectBestPair]

theorem selectBestPair_mem {stats : List ((Wd × Wd) × Nat)} {e : (Wd × Wd) × Nat}
    (h : selectBestPair stats = some e) : e ∈ stats := by
  cases stats with
  | nil => simp [selectBestPair] at h
  | cons f rest =>
    simp only [selectBestPair, Option.some.injEq] at h
    rcases selFold_mem rest f with hm | hm
    · rw [h] at hm
      exact hm ▸ List.mem_cons_self _ _
    · exact List.mem_cons_of_mem _ (h ▸ hm)

theorem selectBestPair_not_lt {stats : List ((Wd × Wd) × Nat)} {e : (Wd × Wd) × Nat}
    (h : selectBestPair stats = some e) : ∀ f ∈ stats, ¬ entryLt e f := by
  cases stats with
  | nil => simp [selectBestPair] at h
  | cons g rest =>
    simp only [selectBestPair, Option.some.injEq] at h
    intro f hf
    rcases List.mem_cons.mp hf with heq | hf
    · subst heq
      exact h ▸ selFold_max rest f f (Or.inl rfl)
    · exact h ▸ selFold_max rest g f (Or.inr hf)

/-- C5: when the training loop's selection (line 106) returns an entry, it
is an entry of the statistics of maximum aggregate frequency; among
equal-frequency entries it is the one whose pair is greatest in the natural
lexicographic order on the pair's two token strings; and the same entry is
selected from any permutation of the statistics, so the selection is a
deterministic function of the pair statistics. -/
theorem C5_selection_deterministic_max (stats : List ((Wd × Wd) × Nat))
    (e : (Wd × Wd) × Nat) (h : selectBestPair stats = some e) :
    e ∈ stats ∧
    (∀ f ∈ stats, f.2 ≤ e.2) ∧
    (∀ f ∈ stats, f.2 = e.2 → f ≠ e → pairLt f.1 e.1) ∧
    (∀ stats', List.Perm stats stats' → selectBestPair stats' = some e) := by
  have hmax := selectBestPair_not_lt h
  refine ⟨selectBestPair_mem h, ?_, ?_, ?_⟩
  · intro f hf
    by_contra hlt
    exact hmax f hf (Or.inl (Nat.lt_of_not_le hlt))
  · intro f hf hfe hne
    rcases entryLt_trichotomy f e with hlt | hEq | hlt
    · rcases hlt with hlt | ⟨_, hlt⟩
      · exact absurd hfe (Nat.ne_of_lt hlt)
      · exact hlt
    · exact absurd hEq hne
    · exact absurd hlt (hmax f hf)
  · intro stats' hperm
    match hs' : selectBestPair stats' with
    | none =>
      have hnil : stats' = [] := (selectBestPair_eq_none stats').mp hs'
      subst hnil
      have : stats = [] := hperm.eq_nil
      subst this
      simp [selectBestPair] at h
    | some e' =>
      have hmem' : e' ∈ stats := hperm.mem_iff.mpr (selectBestPair_mem hs')
      have hmax' := selectBestPair_not_lt hs'
      have hmem : e ∈ stats' := hperm.mem_iff.mp (selectBestPair_mem h)
      rcases entryLt_trichotomy e e' with hlt | hEq | hlt
      · exact absurd hlt (hmax e' hmem')
      · rw [hEq]
      · exact absurd hlt (hmax' e hmem)

/-- C5 witness: concrete statistics with a frequency tie between the pairs
`("क","ख")` and `("क","ग")`; the theorem applies and in particular the
lex-greater `("क","ग")` is selected. -/
theorem C5_selection_deterministic_max_witness :
    selectBestPair [((['क'], ['ख']), 7), ((['क'], ['ग']), 7), ((['ग'], ['घ']), 3)] =
      some ((['क'], ['ग']), 7) ∧
    ((['क'], ['ग']), 7) ∈
      [((['क'], ['ख']), 7), ((['क'], ['ग']), 7), ((['ग'], ['घ']), 3)] := by
  refine ⟨by decide, ?_⟩
  exact (C5_selection_deterministic_max
    [((['क'], ['ख']), 7), ((['क'], ['ग']), 7), ((['ग'], ['घ']), 3)]
    ((['क'], ['ग']), 7) (by decide)).1

/-! ## Claim C6

The merge loop of `encode` (lines 206-235): the inner search keeps the
first pair achieving the strictly smallest recorded rank (`rank <
best_rank` of line 218), so the selected occurrence is the leftmost one of
the minimal-rank pair; the loop stops when no present pair is ranked
(`best_pair is None`) or the winning concatenation is not in the
vocabulary, and otherwise splices exactly the selected occurrence and
repeats. -/

theorem findBestAux_go (bpe_ranks : List ((Wd × Wd) × Nat)) (pairs : List (Wd × Wd)) :
    ∀ (rest : List (Wd × Wd)) (i : Nat) (best : Option ((Wd × Wd) × Nat × Nat)),
    pairs.drop i = rest →
    (best = none → ∀ j q, j < i → pairs[j]? = some q → dictGet bpe_ranks q = none) →
    (∀ bq bi br, best = some (bq, bi, br) →
      dictGet bpe_ranks bq = some br ∧ bi < i ∧ pairs[bi]? = some bq ∧
      (∀ j q rj, j < i → pairs[j]? = some q → dictGet bpe_ranks q = some rj → br ≤ rj) ∧
      (∀ j q rj, j < bi → pairs[j]? = some q → dictGet bpe_ranks q = some rj → br < rj)) →
    ((findBestAux bpe_ranks rest i best = none →
        ∀ j q, j < pairs.length → pairs[j]? = some q → dictGet bpe_ranks q = none) ∧
     (∀ bq bi br, findBestAux bpe_ranks rest i best = some (bq, bi, br) →
        dictGet bpe_ranks bq = some br ∧ bi < pairs.length ∧ pairs[bi]? = some bq ∧
        (∀ j q rj, j < pairs.length → pairs[j]? = some q →
          dictGet bpe_ranks q = some rj → br ≤ rj) ∧
        (∀ j q rj, j < bi → pairs[j]? = some q → dictGet bpe_ranks q = some rj → br < rj))) := by
  intro rest
  induction rest with
  | nil =>
    intro i best hdrop hnone hsome
    have hlen : pairs.length ≤ i := List.drop_eq_nil_iff.mp hdrop
    constructor
    · intro h j q hj hq
      exact hnone h j q (hj.trans_le hlen) hq
    · intro bq bi br h
      simp only [findBestAux] at h
      obtain ⟨h1, _, h3, h4, h5⟩ := hsome bq bi br h
      have hbi : bi < pairs.length := (List.getElem?_eq_some.mp h3).1
      exact ⟨h1, hbi, h3, fun j q rj hj hq hr => h4 j q rj (hj.trans_le hlen) hq hr, h5⟩
  | cons q rest ih =>
    intro i best hdrop hnone hsome
    have hq : pairs[i]? = some q := by
      have h0 : (pairs.drop i)[0]? = some q := by rw [hdrop]; simp
      rw [List.getElem?_drop pairs i 0] at h0
      simpa using h0
    have hdrop' : pairs.drop (i + 1) = rest := by
      rw [← List.tail_drop pairs i, hdrop]
      rfl
    simp only [findBestAux]
    cases hr : dictGet bpe_ranks q with
    | none =>
      simp only [findBestUpd]
      refine ih (i + 1) best hdrop' ?_ ?_
      · intro hb j q' hj hq'
        rcases Nat.lt_succ_iff_lt_or_eq.mp hj with hj | hj
        · exact hnone hb j q' hj hq'
        · subst hj
          rw [hq'] at hq
          cases hq
          exact hr
      · intro bq bi br hb
        obtain ⟨h1, h2, h3, h4, h5⟩ := hsome bq bi br hb
        refine ⟨h1, h2.trans (Nat.lt_succ_self i), h3, ?_, h5⟩
        intro j q' rj hj hq' hrj
        rcases Nat.lt_succ_iff_lt_or_eq.mp hj with hj | hj
        · exact h4 j q' rj hj hq' hrj
        · subst hj
          rw [hq'] at hq
          cases hq
          rw [hr] at hrj
          cases hrj
    | some r =>
      cases best with
      | none =>
        simp only [findBestUpd]
        refine ih (i + 1) (some (q, i, r)) hdrop' (by intro h; cases h) ?_
        intro bq bi br hb
        cases hb
        refine ⟨hr, Nat.lt_succ_self i, hq, ?_, ?_⟩
        · intro j q' rj hj hq' hrj
          rcases Nat.lt_succ_iff_lt_or_eq.mp hj with hj | hj
          · rw [hnone rfl j q' hj hq'] at hrj
            cases hrj
          · subst hj
            rw [hq'] at hq
            cases hq
            rw [hr] at hrj
            cases hrj
            exact le_rfl
        · intro j q' rj hj hq' hrj
          rw [hnone rfl j q' hj hq'] at hrj
          cases hrj
      | some b =>
        obtain ⟨bq0, bi0, br0⟩ := b
        obtain ⟨g1, g2, g3, g4, g5⟩ := hsome bq0 bi0 br0 rfl
        simp only [findBestUpd]
        by_cases hlt : r < br0
        · rw [if_pos hlt]
          refine ih (i + 1) (some (q, i, r)) hdrop' (by intro h; cases h) ?_
          intro bq bi br hb
          cases hb
          refine ⟨hr, Nat.lt_succ_self i, hq, ?_, ?_⟩
          · intro j q' rj hj hq' hrj
            rcases Nat.lt_succ_iff_lt_or_eq.mp hj with hj | hj
            · exact le_of_lt (hlt.trans_le (g4 j q' rj hj hq' hrj))
            · subst hj
              rw [hq'] at hq
              cases hq
              rw [hr] at hrj
              cases hrj
              exact le_rfl
          · intro j q' rj hj hq' hrj
            exact hlt.trans_le (g4 j q' rj hj hq' hrj)
        · rw [if_neg hlt]
          refine ih (i + 1) (some (bq0, bi0, br0)) hdrop' (by intro h; cases h) ?_
          intro bq bi br hb
          cases hb
          refine ⟨g1, g2.trans (Nat.lt_succ_self i), g3, ?_, g5⟩
          intro j q' rj hj hq' hrj
          rcases Nat.lt_succ_iff_lt_or_eq.mp hj with hj | hj
          · exact g4 j q' rj hj hq' hrj
          · subst hj
            rw [hq'] at hq
            cases hq
            rw [hr] at hrj
            cases hrj
            exact Nat.le_of_not_lt hlt

/-- When the search of lines 212-221 ends with `best_pair is None`, no
present pair has a recorded rank. -/
theorem findBest_eq_none {bpe_ranks : List ((Wd × Wd) × Nat)} {pairs : List (Wd × Wd)}
    (h : findBest bpe_ranks pairs = none) : ∀ q ∈ pairs, dictGet bpe_ranks q = none := by
  intro q hq
  obtain ⟨j, hj⟩ := List.mem_iff_getElem?.mp hq
  exact (findBestAux_go bpe_ranks pairs pairs 0 none rfl
    (fun _ j q hj _ => absurd hj (Nat.not_lt_zero j))
    (fun _ _ _ hb => by cases hb)).1 h j q (List.getElem?_eq_some.mp hj).1 hj

/-- When the search returns a winner, it is a present pair with a recorded
rank that is minimal among the recorded ranks of present pairs, and its
index is the leftmost index achieving that rank. -/
theorem findBest_eq_some {bpe_ranks : List ((Wd × Wd) × Nat)} {pairs : List (Wd × Wd)}
    {p : Wd × Wd} {idx r : Nat} (h : findBest bpe_ranks pairs = some (p, idx, r)) :
    dictGet bpe_ranks p = some r ∧ idx < pairs.length ∧ pairs[idx]? = some p ∧
    (∀ q ∈ pairs, ∀ rq, dictGet bpe_ranks q = some rq → r ≤ rq) ∧
    (∀ j q rj, j < idx → pairs[j]? = some q → dictGet bpe_ranks q = some rj → r < rj) := by
  obtain ⟨h1, h2, h3, h4, h5⟩ := (findBestAux_go bpe_ranks pairs pairs 0 none rfl
    (fun _ j q hj _ => absurd hj (Nat.not_lt_zero j))
    (fun _ _ _ hb => by cases hb)).2 p idx r h
  refine ⟨h1, h2, h3, ?_, h5⟩
  intro q hq rq hrq
  obtain ⟨j, hj⟩ := List.mem_iff_getElem?.mp hq
  exact h4 j q rq (List.getElem?_eq_some.mp hj).1 hj hrq

theorem adjPairs_length (ts : List Wd) : (adjPairs ts).length = ts.length - 1 := by
  rw [adjPairs, List.length_zip, List.length_tail]
  exact Nat.min_eq_right (Nat.sub_le _ _)

theorem spliceAt_length (ts : List Wd) (idx : Nat) (m : Wd)
    (h : idx < ts.length - 1) : (spliceAt ts idx m).length = ts.length - 1 := by
  have h2 : idx + 2 ≤ ts.length := by omega
  simp only [spliceAt, List.length_append, List.length_take, List.length_drop,
    List.length_cons, List.length_nil]
  omega

theorem mergeLoop_small (vocab : List (Wd × Nat)) (bpe_ranks : List ((Wd × Wd) × Nat))
    (ts : List Wd) (h : ts.length ≤ 1) : mergeLoop vocab bpe_ranks ts = (ts, none) := by
  match ts with
  | [] => rfl
  | [a] => rfl
  | a :: b :: tl => simp at h

theorem mergeLoopF_unfold (vocab : List (Wd × Nat)) (bpe_ranks : List ((Wd × Wd) × Nat))
    (f : Nat) (ts : List Wd) (h1 : 1 < ts.length) :
    mergeLoopF vocab bpe_ranks (f + 1) ts =
      match findBest bpe_ranks (adjPairs ts) with
      | none => (ts, some ((adjPairs ts).length - 1))
      | some (p, idx, _) =>
        if dictContains vocab (p.1 ++ p.2) then
          ((mergeLoopF vocab bpe_ranks f (spliceAt ts idx (p.1 ++ p.2))).1,
            some ((mergeLoopF vocab bpe_ranks f (spliceAt ts idx (p.1 ++ p.2))).2.getD
              ((adjPairs ts).length - 1)))
        else (ts, some ((adjPairs ts).length - 1)) := by
  rw [mergeLoopF, if_neg (not_le.mpr h1)]

theorem mergeLoop_stop_none (vocab : List (Wd × Nat)) (bpe_ranks : List ((Wd × Wd) × Nat))
    (ts : List Wd) (h1 : 1 < ts.length)
    (hfb : findBest bpe_ranks (adjPairs ts) = none) :
    mergeLoop vocab bpe_ranks ts = (ts, some ((adjPairs ts).length - 1)) := by
  obtain ⟨f, hf⟩ : ∃ f, ts.length = f + 1 := ⟨ts.length - 1, by omega⟩
  rw [mergeLoop, hf, mergeLoopF_unfold vocab bpe_ranks f ts h1, hfb]

theorem mergeLoop_stop_notin (vocab : List (Wd × Nat)) (bpe_ranks : List ((Wd × Wd) × Nat))
    (ts : List Wd) (h1 : 1 < ts.length) (p : Wd × Wd) (idx rk : Nat)
    (hfb : findBest bpe_ranks (adjPairs ts) = some (p, idx, rk))
    (hv : dictContains vocab (p.1 ++ p.2) = false) :
    mergeLoop vocab bpe_ranks ts = (ts, some ((adjPairs ts).length - 1)) := by
  obtain ⟨f, hf⟩ : ∃ f, ts.length = f + 1 := ⟨ts.length - 1, by omega⟩
  rw [mergeLoop, hf, mergeLoopF_unfold vocab bpe_ranks f ts h1, hfb]
  simp [hv]

theorem mergeLoop_step_eq (vocab : List (Wd × Nat)) (bpe_ranks : List ((Wd × Wd) × Nat))
    (ts : List Wd) (h1 : 1 < ts.length) (p : Wd × Wd) (idx rk : Nat)
    (hfb : findBest bpe_ranks (adjPairs ts) = some (p, idx, rk))
    (hv : dictContains vocab (p.1 ++ p.2) = true) :
    mergeLoop vocab bpe_ranks ts =
      ((mergeLoop vocab bpe_ranks (spliceAt ts idx (p.1 ++ p.2))).1,
        some ((mergeLoop vocab bpe_ranks (spliceAt ts idx (p.1 ++ p.2))).2.getD
          ((adjPairs ts).length - 1))) := by
  have hidx : idx < (adjPairs ts).length := (findBest_eq_some hfb).2.1
  have hsp : (spliceAt ts idx (p.1 ++ p.2)).length = ts.length - 1 :=
    spliceAt_length ts idx _ (by rw [← adjPairs_length]; exact hidx)
  obtain ⟨f, hf⟩ : ∃ f, ts.length = f + 1 := ⟨ts.length - 1, by omega⟩
  have hspf : (spliceAt ts idx (p.1 ++ p.2)).length = f := by omega
  rw [mergeLoop, hf, mergeLoopF_unfold vocab bpe_ranks f ts h1, hfb]
  dsimp only
  rw [if_pos hv, mergeLoop, hspf]

/-- C6: behaviour of the merge loop of `encode` on a unit sequence of more
than one token.  If the best-pair search finds no ranked pair, no adjacent
pair has a recorded rank and the loop stops with the sequence unchanged.
Otherwise the winner `p` at index `idx` carries a recorded rank `rk` that
is minimal among the recorded ranks of all present adjacent pairs, `idx` is
an occurrence of `p` and no earlier index holds `p` (leftmost occurrence);
if `p`'s concatenation is not in the vocabulary the loop stops with the
sequence unchanged, and otherwise exactly that occurrence is merged
(`spliceAt`) and the loop continues on the result. -/
theorem C6_encode_merge_loop (vocab : List (Wd × Nat)) (bpe_ranks : List ((Wd × Wd) × Nat))
    (ts : List Wd) (h1 : 1 < ts.length) :
    (findBest bpe_ranks (adjPairs ts) = none →
      (∀ q ∈ adjPairs ts, dictGet bpe_ranks q = none) ∧
      (mergeLoop vocab bpe_ranks ts).1 = ts) ∧
    (∀ p idx rk, findBest bpe_ranks (adjPairs ts) = some (p, idx, rk) →
      dictGet bpe_ranks p = some rk ∧
      (adjPairs ts)[idx]? = some p ∧
      (∀ q ∈ adjPairs ts, ∀ rq, dictGet bpe_ranks q = some rq → rk ≤ rq) ∧
      (∀ j, j < idx → (adjPairs ts)[j]? ≠ some p) ∧
      (dictContains vocab (p.1 ++ p.2) = false →
        (mergeLoop vocab bpe_ranks ts).1 = ts) ∧
      (dictContains vocab (p.1 ++ p.2) = true →
        (mergeLoop vocab bpe_ranks ts).1 =
          (mergeLoop vocab bpe_ranks (spliceAt ts idx (p.1 ++ p.2))).1)) := by
  constructor
  · intro hfb
    refine ⟨findBest_eq_none hfb, ?_⟩
    rw [mergeLoop_stop_none vocab bpe_ranks ts h1 hfb]
  · intro p idx rk hfb
    obtain ⟨h1r, h2r, h3r, h4r, h5r⟩ := findBest_eq_some hfb
    refine ⟨h1r, h3r, h4r, ?_, ?_, ?_⟩
    · intro j hj hp
      exact absurd h1r (by
        have := h5r j p rk hj hp h1r
        omega)
    · intro hv
      rw [mergeLoop_stop_notin vocab bpe_ranks ts h1 p idx rk hfb hv]
    · intro hv
      rw [mergeLoop_step_eq vocab bpe_ranks ts h1 p idx rk hfb hv]

/-- C6 witness: tokens `["क","ख","क","ख"]` with ranks
`("ख","क") ↦ 0` and `("क","ख") ↦ 1`: the theorem applies, and in
particular the loop merges the single middle occurrence of the
lowest-ranked pair `("ख","क")` first. -/
theorem C6_encode_merge_loop_witness :
    (1 < ([['क'], ['ख'], ['क'], ['ख']] : List Wd).length) ∧
    (mergeLoop [("खक".toList, 9)] [((['ख'], ['क']), 0), ((['क'], ['ख']), 1)]
        [['क'], ['ख'], ['क'], ['ख']]).1 =
      (mergeLoop [("खक".toList, 9)] [((['ख'], ['क']), 0), ((['क'], ['ख']), 1)]
        (spliceAt [['क'], ['ख'], ['क'], ['ख']] 1 "खक".toList)).1 :=
  ⟨by decide,
    ((C6_encode_merge_loop [("खक".toList, 9)] [((['ख'], ['क']), 0), ((['क'], ['ख']), 1)]
      [['क'], ['ख'], ['क'], ['ख']] (by decide)).2 (['ख'], ['क']) 1 0
      (by decide)).2.2.2.2.2 (by decide)⟩

/-! ## Claim C10

Every id `encode` emits is a `vocab` value: whole-word ids and merged-unit
ids come from vocabulary lookups guarded by membership tests, the
per-character fallback emits either a character's id or `vocab["<UNK>"]`,
and the boundary id is `vocab[word_end_token]`.  In a state whose
`inverse_vocab` covers all `vocab` values (as maintained by the class),
decoding an `encode` output therefore never takes the missing-id
fallback. -/

/-- Every value of `vocab` is a key of `inverse_vocab`, and the two tokens
`encode` looks up unconditionally are vocabulary members. -/
def encodeConsistent (vocab : List (Wd × Nat)) (inverse_vocab : List (Nat × Wd)) : Prop :=
  (∀ pr ∈ vocab, (dictGet inverse_vocab pr.2).isSome = true) ∧
  dictContains vocab ("<UNK>".toList) = true ∧
  dictContains vocab word_end_token = true

theorem vocabId_isSome {vocab : List (Wd × Nat)} {inverse_vocab : List (Nat × Wd)}
    (h1 : ∀ pr ∈ vocab, (dictGet inverse_vocab pr.2).isSome = true) {w : Wd}
    (hw : dictContains vocab w = true) :
    (dictGet inverse_vocab ((dictGet vocab w).getD 0)).isSome = true := by
  rw [dictContains] at hw
  obtain ⟨i, hi⟩ := Option.isSome_iff_exists.mp hw
  rw [hi]
  exact h1 (w, i) (dictGet_mem hi)

theorem tokensToIds_isSome {vocab : List (Wd × Nat)} {inverse_vocab : List (Nat × Wd)}
    (hc : encodeConsistent vocab inverse_vocab) (ts : List Wd) :
    ∀ id ∈ tokensToIds vocab ts, (dictGet inverse_vocab id).isSome = true := by
  obtain ⟨h1, h2, _⟩ := hc
  intro id hid
  rw [tokensToIds] at hid
  obtain ⟨tok, _, hid⟩ := List.mem_flatMap.mp hid
  by_cases ht : dictContains vocab tok = true
  · rw [if_pos ht] at hid
    rcases List.mem_singleton.mp hid with rfl
    exact vocabId_isSome h1 ht
  · rw [if_neg ht] at hid
    obtain ⟨c, _, hid⟩ := List.mem_map.mp hid
    subst hid
    by_cases hch : dictContains vocab [c] = true
    · rw [if_pos hch]
      exact vocabId_isSome h1 hch
    · rw [if_neg hch]
      exact vocabId_isSome h1 h2

theorem encodeLoop_isSome {vocab : List (Wd × Nat)} {inverse_vocab : List (Nat × Wd)}
    (hc : encodeConsistent vocab inverse_vocab)
    (bpe_ranks : List ((Wd × Wd) × Nat)) (words : List Wd) :
    ∀ (cache : List (Wd × List Wd)) (widx total : Nat),
      ∀ id ∈ (encodeLoop vocab bpe_ranks cache words widx total).1,
        (dictGet inverse_vocab id).isSome = true := by
  obtain ⟨h1, h2, h3⟩ := hc
  induction words with
  | nil =>
    intro cache widx total id hid
    simp [encodeLoop] at hid
  | cons w ws ih =>
    intro cache widx total id hid
    rw [encodeLoop] at hid
    by_cases hst : (pyStrip w).isEmpty
    · rw [if_pos hst] at hid
      exact ih cache (widx + 1) total id hid
    · rw [if_neg hst] at hid
      simp only [List.mem_append] at hid
      rcases hid with (hid | hid) | hid
      · by_cases hw : dictContains vocab w = true
        · simp only [if_pos hw] at hid
          rcases List.mem_singleton.mp hid with rfl
          exact vocabId_isSome h1 hw
        · simp only [if_neg hw] at hid
          exact tokensToIds_isSome ⟨h1, h2, h3⟩ _ id hid
      · by_cases hw : dictContains vocab w = true
        · simp only [if_pos hw] at hid
          split at hid
          · rcases List.mem_singleton.mp hid with rfl
            exact vocabId_isSome h1 h3
          · simp at hid
        · simp only [if_neg hw] at hid
          split at hid
          · rcases List.mem_singleton.mp hid with rfl
            exact vocabId_isSome h1 h3
          · simp at hid
      · exact ih _ (widx + 1) total id hid

/-- C10: in any state whose inverse vocabulary covers all vocabulary ids
(and which contains the `<UNK>` and boundary tokens, as every constructed
state does), every id emitted by `encode` is a key of the inverse
vocabulary, so `decode` of an `encode` output never takes the
missing-id (`inverse_vocab.get(id, "<UNK>")`) fallback. -/
theorem C10_encode_ids_decodable (t : Tok) (text : List Char)
    (hc : encodeConsistent t.vocab t.inverse_vocab) :
    ∀ id ∈ (encode t text).1, (dictGet t.inverse_vocab id).isSome = true := by
  intro id hid
  rw [encode] at hid
  by_cases hst : (pyStrip text).isEmpty
  · rw [if_pos hst] at hid
    simp at hid
  · rw [if_neg hst] at hid
    exact encodeLoop_isSome hc t.bpe_ranks (pySplit text) t.cache 0 _ id hid

/-- C10 witness: on a fresh tokenizer (which is consistent), the id `1`
emitted by `encode "नमस्ते क"` has an inverse-vocabulary entry. -/
theorem C10_encode_ids_decodable_witness :
    (dictGet (initTok 100 (16/5)).inverse_vocab 1).isSome = true :=
  C10_encode_ids_decodable (initTok 100 (16/5)) "नमस्ते क".toList
    (by refine ⟨?_, by decide, by decide⟩; decide) 1 (by decide)

/-! ## Claim C3

Round trip for texts of whole-vocabulary words.  As stated the claim is
false: a whole-vocabulary word may be one of the reserved special tokens,
which `decode` drops - `decode(encode("<PAD>")) = ""` - and `text.split()`
collapses irregular whitespace.  Restricted to non-special, non-boundary
vocabulary entries joined by single spaces, the round trip is exact. -/

theorem spaceJoin_nil : spaceJoin [] = [] := rfl

theorem spaceJoin_single (w : Wd) : spaceJoin [w] = w := by
  simp [spaceJoin, List.intercalate]

theorem spaceJoin_cons_cons (w x : Wd) (ws : List Wd) :
    spaceJoin (w :: x :: ws) = w ++ ' ' :: spaceJoin (x :: ws) := by
  simp [spaceJoin, List.intercalate, List.intersperse]

theorem takeWhile_append_all {p : Char → Bool} {w : List Char}
    (hw : ∀ c ∈ w, p c = true) (s : List Char) :
    (w ++ s).takeWhile p = w ++ s.takeWhile p := by
  induction w with
  | nil => rfl
  | cons c cs ih =>
    rw [List.cons_append, List.takeWhile_cons, if_pos (hw c (List.mem_cons_self c cs)),
      ih (fun d hd => hw d (List.mem_cons_of_mem c hd)), List.cons_append]

theorem dropWhile_append_all {p : Char → Bool} {w : List Char}
    (hw : ∀ c ∈ w, p c = true) (s : List Char) :
    (w ++ s).dropWhile p = s.dropWhile p := by
  induction w with
  | nil => rfl
  | cons c cs ih =>
    rw [List.cons_append, List.dropWhile_cons, if_pos (hw c (List.mem_cons_self c cs)),
      ih (fun d hd => hw d (List.mem_cons_of_mem c hd))]

/-- Splitting a single nonempty whitespace-free word. -/
theorem pySplit_word (w : Wd) (hw : w ≠ []) (hns : ∀ c ∈ w, isPySpace c = false) :
    pySplit w = [w] := by
  match w with
  | c :: cs =>
    have hc : isPySpace c = false := hns c (List.mem_cons_self c cs)
    rw [pySplit_cons, if_neg (by simp [hc])]
    have hall : ∀ d ∈ c :: cs, (fun d => ! isPySpace d) d = true := by
      intro d hd
      simp [hns d hd]
    have ht : (c :: cs).takeWhile (fun d => ! isPySpace d) = c :: cs := by
      have := takeWhile_append_all hall []
      simpa using this
    have hd : (c :: cs).dropWhile (fun d => ! isPySpace d) = [] := by
      have := dropWhile_append_all hall []
      simpa using this
    rw [ht, hd]
    rfl

/-- Splitting a nonempty whitespace-free word followed by a space. -/
theorem pySplit_word_cons (w : Wd) (s : List Char) (hw : w ≠ [])
    (hns : ∀ c ∈ w, isPySpace c = false) :
    pySplit (w ++ ' ' :: s) = w :: pySplit s := by
  match w with
  | c :: cs =>
    have hc : isPySpace c = false := hns c (List.mem_cons_self c cs)
    have hall : ∀ d ∈ c :: cs, (fun d => ! isPySpace d) d = true := by
      intro d hd
      simp [hns d hd]
    rw [List.cons_append, pySplit_cons, if_neg (by simp [hc])]
    rw [show c :: (cs ++ ' ' :: s) = (c :: cs) ++ ' ' :: s from rfl]
    rw [takeWhile_append_all hall (' ' :: s), dropWhile_append_all hall (' ' :: s)]
    have hsp : isPySpace ' ' = true := by decide
    rw [List.takeWhile_cons, List.dropWhile_cons]
    simp only [hsp, Bool.not_true, if_neg Bool.false_ne_true, List.append_nil]
    rw [pySplit_cons, if_pos hsp]

/-- `text.split()` inverts `' '.join` on nonempty whitespace-free words. -/
theorem pySplit_spaceJoin (ws : List Wd) (hne : ∀ w ∈ ws, w ≠ [])
    (hns : ∀ w ∈ ws, ∀ c ∈ w, isPySpace c = false) :
    pySplit (spaceJoin ws) = ws := by
  induction ws with
  | nil => rfl
  | cons w ws ih =>
    match ws with
    | [] =>
      rw [spaceJoin_single]
      exact pySplit_word w (hne w (by simp)) (hns w (by simp))
    | x :: ws' =>
      rw [spaceJoin_cons_cons,
        pySplit_word_cons w _ (hne w (by simp)) (hns w (by simp))]
      rw [ih (fun v hv => hne v (List.mem_cons_of_mem w hv))
        (fun v hv => hns v (List.mem_cons_of_mem w hv))]

theorem dropWhile_ne_nil_of_exists {p : Char → Bool} {l : List Char}
    (h : ∃ c ∈ l, p c = false) : l.dropWhile p ≠ [] ∧ ∃ c ∈ l.dropWhile p, p c = false := by
  induction l with
  | nil => simp at h
  | cons a tl ih =>
    rw [List.dropWhile_cons]
    by_cases ha : p a = true
    · rw [if_pos ha]
      obtain ⟨c, hc, hcp⟩ := h
      rcases List.mem_cons.mp hc with heq | hc
      · rw [heq] at hcp
        rw [hcp] at ha
        cases ha
      · exact ih ⟨c, hc, hcp⟩
    · rw [if_neg ha]
      exact ⟨List.cons_ne_nil a tl, a, List.mem_cons_self a tl, by simpa using ha⟩

/-- A string containing a non-whitespace character does not strip to
empty. -/
theorem pyStrip_ne_nil {s : List Char} (h : ∃ c ∈ s, isPySpace c = false) :
    (pyStrip s).isEmpty = false := by
  obtain ⟨h1, c, hc, hcp⟩ := dropWhile_ne_nil_of_exists h
  have h2 : ∃ d ∈ (s.dropWhile isPySpace).reverse, isPySpace d = false :=
    ⟨c, List.mem_reverse.mpr hc, hcp⟩
  obtain ⟨h3, _⟩ := dropWhile_ne_nil_of_exists h2
  have hne : pyStrip s ≠ [] := by
    rw [pyStrip]
    intro hcontra
    exact h3 (by simpa using congrArg List.reverse hcontra)
  cases hE : (pyStrip s).isEmpty with
  | false => rfl
  | true => exact absurd (List.isEmpty_iff.mp hE) hne

/-- The id sequence `encode` produces on a list of whole-vocabulary words:
one id per word with the boundary id between consecutive words. -/
def idsOfWords (vocab : List (Wd × Nat)) : List Wd → List Nat
  | [] => []
  | [w] => [(dictGet vocab w).getD 0]
  | w :: x :: ws =>
    (dictGet vocab w).getD 0 :: (dictGet vocab word_end_token).getD 0 ::
      idsOfWords vocab (x :: ws)

theorem encodeLoop_whole_words (vocab : List (Wd × Nat))
    (bpe_ranks : List ((Wd × Wd) × Nat)) (ws : List Wd)
    (h : ∀ w ∈ ws, dictContains vocab w = true ∧ w ≠ [] ∧
      ∀ c ∈ w, isPySpace c = false) :
    ∀ (cache : List (Wd × List Wd)) (widx : Nat),
      encodeLoop vocab bpe_ranks cache ws widx (widx + ws.length) =
        (idsOfWords vocab ws, cache) := by
  induction ws with
  | nil =>
    intro cache widx
    rfl
  | cons w ws ih =>
    intro cache widx
    obtain ⟨hw, hne, hns⟩ := h w (List.mem_cons_self w ws)
    have hstrip : (pyStrip w).isEmpty = false := by
      match w, hne with
      | c :: cs, _ =>
        exact pyStrip_ne_nil ⟨c, List.mem_cons_self c cs, hns c (List.mem_cons_self c cs)⟩
    rw [encodeLoop, hstrip]
    simp only [Bool.false_eq_true, if_false, if_pos hw]
    match ws with
    | [] =>
      simp only [List.length_cons, List.length_nil]
      split
      · rename_i hcond
        omega
      · simp [idsOfWords, encodeLoop]
    | x :: ws' =>
      simp only [List.length_cons]
      split
      · have := ih (fun v hv => h v (List.mem_cons_of_mem w hv)) cache (widx + 1)
        simp only [List.length_cons] at this
        rw [show widx + (ws'.length + 1 + 1) = widx + 1 + (ws'.length + 1) from by omega,
          this]
        simp [idsOfWords]
      · rename_i hcond
        omega

theorem decodeLoop_idsOfWords (vocab : List (Wd × Nat)) (inverse_vocab : List (Nat × Wd))
    (hB : dictGet inverse_vocab ((dictGet vocab word_end_token).getD 0) =
      some word_end_token)
    (ws : List Wd)
    (h : ∀ w ∈ ws, dictGet inverse_vocab ((dictGet vocab w).getD 0) = some w ∧
      ¬ w ∈ specialTokens ∧ w ≠ word_end_token) :
    ∀ tokens : List Wd,
      decodeLoop inverse_vocab (idsOfWords vocab ws) tokens [] = tokens ++ ws := by
  induction ws with
  | nil =>
    intro tokens
    simp [idsOfWords, decodeLoop]
  | cons w ws ih =>
    intro tokens
    obtain ⟨hw, hsp, hwe⟩ := h w (List.mem_cons_self w ws)
    match ws with
    | [] =>
      rw [idsOfWords, decodeLoop, hw]
      simp only [Option.getD_some]
      rw [if_neg (by intro hc; exact hsp hc.1), if_neg hwe]
      simp [decodeLoop]
    | x :: ws' =>
      rw [idsOfWords, decodeLoop, hw]
      simp only [Option.getD_some]
      rw [if_neg (by intro hc; exact hsp hc.1), if_neg hwe]
      rw [decodeLoop, hB]
      simp only [Option.getD_some]
      rw [if_neg (by intro hc; exact hc.2 rfl)]
      simp only [eq_self_iff_true, if_true, List.nil_append, List.isEmpty_cons,
        Bool.false_eq_true, if_neg]
      have := ih (fun v hv => h v (List.mem_cons_of_mem w hv)) (tokens ++ [[w].flatten])
      rw [this]
      simp

/-- C3 (amended): for a text that is the single-space join of words each
of which is a whole-vocabulary entry, is not a special token, is not the
boundary token, and is nonempty and whitespace-free - and whose ids the
inverse vocabulary maps back to the word, with the boundary id mapping to
the boundary token - `decode (encode text)` returns `text` exactly. -/
theorem C3_whole_word_roundtrip (t : Tok) (ws : List Wd) (hws : ws ≠ [])
    (hB : dictGet t.inverse_vocab ((dictGet t.vocab word_end_token).getD 0) =
      some word_end_token)
    (h : ∀ w ∈ ws, dictContains t.vocab w = true ∧
      dictGet t.inverse_vocab ((dictGet t.vocab w).getD 0) = some w ∧
      ¬ w ∈ specialTokens ∧ w ≠ word_end_token ∧ w ≠ [] ∧
      ∀ c ∈ w, isPySpace c = false) :
    decode t (encode t (spaceJoin ws)).1 = spaceJoin ws := by
  match ws, hws with
  | w :: ws', _ =>
    obtain ⟨hw1, hw2, hw3, hw4, hw5, hw6⟩ := h w (List.mem_cons_self w ws')
    have hjoin : ∃ s, spaceJoin (w :: ws') = w ++ s := by
      match ws' with
      | [] => exact ⟨[], by rw [spaceJoin_single, List.append_nil]⟩
      | x :: ws'' => exact ⟨' ' :: spaceJoin (x :: ws''), spaceJoin_cons_cons w x ws''⟩
    obtain ⟨s, hs⟩ := hjoin
    have hstrip : (pyStrip (spaceJoin (w :: ws'))).isEmpty = false := by
      match w, hw5 with
      | c :: cs, _ =>
        refine pyStrip_ne_nil ⟨c, ?_, hw6 c (List.mem_cons_self c cs)⟩
        rw [hs]
        exact List.mem_append_left s (List.mem_cons_self c cs)
    rw [encode, hstrip]
    simp only [Bool.false_eq_true, if_false]
    rw [pySplit_spaceJoin (w :: ws') (fun v hv => (h v hv).2.2.2.2.1)
      (fun v hv => (h v hv).2.2.2.2.2)]
    rw [show (w :: ws').length = 0 + (w :: ws').length from (Nat.zero_add _).symm]
    rw [encodeLoop_whole_words t.vocab t.bpe_ranks (w :: ws')
      (fun v hv => ⟨(h v hv).1, (h v hv).2.2.2.2.1, (h v hv).2.2.2.2.2⟩) t.cache 0]
    dsimp only
    have hids : idsOfWords t.vocab (w :: ws') ≠ [] := by
      match ws' with
      | [] => simp [idsOfWords]
      | x :: ws'' => simp [idsOfWords]
    rw [decode, if_neg (by simpa [List.isEmpty_iff] using hids)]
    rw [decodeLoop_idsOfWords t.vocab t.inverse_vocab hB (w :: ws')
      (fun v hv => ⟨(h v hv).2.1, (h v hv).2.2.1, (h v hv).2.2.2.1⟩) []]
    rfl

/-- C3 counterexample: the text `"<PAD>"` consists of a single word that
*is* a whole-vocabulary entry of the fresh tokenizer, yet
`decode (encode "<PAD>")` is `""`, not `"<PAD>"`: the claim's universal
round-trip statement fails on special-token words. -/
theorem C3_special_word_not_roundtrip :
    pySplit "<PAD>".toList = ["<PAD>".toList] ∧
    dictContains (initTok 100 (16/5)).vocab "<PAD>".toList = true ∧
    (encode (initTok 100 (16/5)) "<PAD>".toList).1 = [0] ∧
    decode (initTok 100 (16/5)) [0] = [] ∧
    ([] : List Char) ≠ "<PAD>".toList := by
  refine ⟨by decide, by decide, by decide, by decide, by decide⟩

/-- The tokenizer state after training once on `"नमस्ते भारत"`: the seed
phase inserts both words whole (ids 20 and 21). -/
def c3Trained : Tok := train_on_chunk (initTok 5000 (16/5)) "नमस्ते भारत".toList

/-- C3 witness: on the trained state, `encode "नमस्ते भारत"` is exactly
`[id("नमस्ते") = 20, id(boundary) = 4, id("भारत") = 21]`, decoding that
gives the text back, and the round-trip equality follows from the amended
theorem applied to the two-word list. -/
theorem C3_whole_word_roundtrip_witness :
    (encode c3Trained "नमस्ते भारत".toList).1 = [20, 4, 21] ∧
    decode c3Trained [20, 4, 21] = "नमस्ते भारत".toList ∧
    decode c3Trained (encode c3Trained "नमस्ते भारत".toList).1 = "नमस्ते भारत".toList := by
  refine ⟨by decide, by decide, ?_⟩
  have hj : "नमस्ते भारत".toList = spaceJoin ["नमस्ते".toList, "भारत".toList] := by decide
  rw [hj]
  refine C3_whole_word_roundtrip c3Trained ["नमस्ते".toList, "भारत".toList]
    (by decide) (by decide) ?_
  intro w hw
  rcases List.mem_cons.mp hw with heq | hw
  · subst heq
    refine ⟨by decide, by decide, by decide, by decide, by decide, by decide⟩
  · rcases List.mem_cons.mp hw with heq | hw
    · subst heq
      refine ⟨by decide, by decide, by decide, by decide, by decide, by decide⟩
    · exact absurd hw (List.not_mem_nil w)

/-! ## Claims C7 and C8

The structural invariants of the vocabulary and the merge-rank table.
Every insertion appends a fresh token with id `len(vocab)` and mirrors it
in `inverse_vocab`, every accepted merge appends a fresh pair with rank
`len(bpe_ranks)`, the snapshot/restore machinery copies both tables
wholesale, and `encode`/`get_compression_ratio` touch only the cache. -/

/-- The vocabulary bijection invariant: ids are exactly `0, 1, ...,
len - 1` in insertion order, tokens are pairwise distinct, and the inverse
table is the exact mirror of the forward table. -/
def vocabBij (vocab : List (Wd × Nat)) (inverse_vocab : List (Nat × Wd)) : Prop :=
  vocab.map Prod.snd = List.range vocab.length ∧
  (vocab.map Prod.fst).Nodup ∧
  inverse_vocab = vocab.map (fun p => (p.2, p.1))

/-- The merge-rank invariant: ranks are exactly `0, 1, ...,
len - 1` in insertion order and every ranked pair's concatenation is a
vocabulary member. -/
def ranksInv (vocab : List (Wd × Nat)) (bpe_ranks : List ((Wd × Wd) × Nat)) : Prop :=
  bpe_ranks.map Prod.snd = List.range bpe_ranks.length ∧
  ∀ pr ∈ bpe_ranks, dictContains vocab (pr.1.1 ++ pr.1.2) = true

/-- The full state invariant of claims C7/C8. -/
def TokInv (t : Tok) : Prop :=
  vocabBij t.vocab t.inverse_vocab ∧ t.vocab.length ≤ t.max_vocab_size ∧
  ranksInv t.vocab t.bpe_ranks

theorem dictGet_append_left {α β : Type} [DecidableEq α] {d : List (α × β)} {k : α}
    {v : β} (h : dictGet d k = some v) (l : List (α × β)) :
    dictGet (d ++ l) k = some v := by
  induction d with
  | nil => simp [dictGet] at h
  | cons p rest ih =>
    rw [dictGet] at h
    by_cases hp : p.1 = k
    · rw [if_pos hp] at h
      rw [List.cons_append, dictGet, if_pos hp]
      exact h
    · rw [if_neg hp] at h
      rw [List.cons_append, dictGet, if_neg hp]
      exact ih h

theorem dictContains_append {α β : Type} [DecidableEq α] {d : List (α × β)} {k : α}
    (h : dictContains d k = true) (l : List (α × β)) :
    dictContains (d ++ l) k = true := by
  rw [dictContains] at h ⊢
  obtain ⟨v, hv⟩ := Option.isSome_iff_exists.mp h
  rw [dictGet_append_left hv l]
  rfl

/-- The two-line insertion (`insertWord`) of a fresh token preserves the
vocabulary bijection and appends exactly `(w, len)` / `(len, w)`. -/
theorem insertWord_bij {vocab : List (Wd × Nat)} {inverse_vocab : List (Nat × Wd)}
    (hb : vocabBij vocab inverse_vocab) {w : Wd} (hw : dictContains vocab w = false) :
    insertWord vocab inverse_vocab w =
      (vocab ++ [(w, vocab.length)], inverse_vocab ++ [(vocab.length, w)]) ∧
    vocabBij (vocab ++ [(w, vocab.length)]) (inverse_vocab ++ [(vocab.length, w)]) := by
  obtain ⟨h1, h2, h3⟩ := hb
  have hget : dictGet vocab w = none := by
    rw [dictContains] at hw
    exact Option.not_isSome_iff_eq_none.mp (by simp [hw])
  have hv' : dictInsert vocab w vocab.length = vocab ++ [(w, vocab.length)] :=
    dictInsert_of_get_none vocab w vocab.length hget
  have hgv : dictGet (dictInsert vocab w vocab.length) w = some vocab.length :=
    dictGet_dictInsert_self vocab w vocab.length
  have hidnew : dictGet inverse_vocab vocab.length = none := by
    rw [dictGet_none_iff, h3, List.map_map]
    have hmm : (Prod.fst ∘ fun p : Wd × Nat => (p.2, p.1)) = Prod.snd := rfl
    rw [hmm, h1]
    simp
  constructor
  · rw [insertWord]
    rw [hgv]
    simp only [Option.getD_some]
    rw [hv', dictInsert_of_get_none inverse_vocab vocab.length w hidnew]
  · refine ⟨?_, ?_, ?_⟩
    · rw [List.map_append, h1, List.length_append]
      simp [List.range_succ]
    · rw [List.map_append]
      rw [List.nodup_append]
      refine ⟨h2, by simp, ?_⟩
      intro a ha hb
      simp only [List.map_cons, List.map_nil, List.mem_singleton] at hb
      subst hb
      rw [dictGet_none_iff] at hget
      exact hget ha
    · rw [List.map_append, h3]
      simp

theorem foldl_preserves {α : Type} (P : Tok → Prop) (f : Tok → α → Tok)
    (hf : ∀ t a, P t → P (f t a)) : ∀ (l : List α) (t : Tok), P t → P (l.foldl f t) := by
  intro l
  induction l with
  | nil => intro t ht; exact ht
  | cons a l ih =>
    intro t ht
    exact ih (f t a) (hf t a ht)

/-- A guarded seed insertion preserves the full invariant. -/
theorem seed_insert_preserves (t : Tok) (w : Wd) (ht : TokInv t)
    (cond : Prop) [Decidable cond] :
    TokInv (if cond ∧ ¬ dictContains t.vocab w ∧ t.vocab.length < t.max_vocab_size then
      let vi := insertWord t.vocab t.inverse_vocab w
      { t with vocab := vi.1, inverse_vocab := vi.2 }
    else t) := by
  split
  · rename_i hc
    obtain ⟨-, hnc, hlt⟩ := hc
    obtain ⟨hb, hle, hr1, hr2⟩ := ht
    have hw : dictContains t.vocab w = false := by
      simp only [Bool.not_eq_true] at hnc
      exact hnc
    obtain ⟨heq, hb'⟩ := insertWord_bij hb hw
    rw [heq]
    refine ⟨hb', ?_, ?_, ?_⟩
    · simpa using hlt
    · exact hr1
    · intro pr hpr
      exact dictContains_append (hr2 pr hpr) _
  · exact ht

theorem seedCommon_preserves (t : Tok) (ht : TokInv t) : TokInv (seedCommon t) := by
  rw [seedCommon]
  refine foldl_preserves TokInv _ ?_ common_words t ht
  intro t w ht
  have := seed_insert_preserves t w ht True
  simpa using this

theorem seedFrequent_preserves (t : Tok) (freqWords : List (Wd × Nat)) (ht : TokInv t) :
    TokInv (seedFrequent t freqWords) := by
  rw [seedFrequent]
  refine foldl_preserves TokInv _ ?_ freqWords t ht
  intro t wf ht
  have := seed_insert_preserves t wf.1 ht (1 < wf.1.length)
  simp only at this ⊢
  by_cases h1 : 1 < wf.1.length
  · by_cases h2 : dictContains t.vocab wf.1 = true
    · simp [h1, h2] at this ⊢
      exact ht
    · by_cases h3 : t.vocab.length < t.max_vocab_size
      · simp only [h1, h2, h3, true_and, and_true, Bool.not_eq_true] at this ⊢
        simpa [if_pos] using this
      · simp [h1, h2, h3] at this ⊢
        exact ht
  · simp [h1] at this ⊢
    exact ht

/-- The direct insertion of the training loop (lines 115-117): fresh token
with `token_id = len(vocab)`, mirrored in the inverse table. -/
theorem insert_pair_bij {vocab : List (Wd × Nat)} {inverse_vocab : List (Nat × Wd)}
    (hb : vocabBij vocab inverse_vocab) {w : Wd} (hw : dictContains vocab w = false) :
    dictInsert vocab w vocab.length = vocab ++ [(w, vocab.length)] ∧
    dictInsert inverse_vocab vocab.length w = inverse_vocab ++ [(vocab.length, w)] ∧
    vocabBij (dictInsert vocab w vocab.length)
      (dictInsert inverse_vocab vocab.length w) := by
  obtain ⟨h1, h2, h3⟩ := hb
  have hget : dictGet vocab w = none := by
    rw [dictContains] at hw
    exact Option.not_isSome_iff_eq_none.mp (by simp [hw])
  have hv' : dictInsert vocab w vocab.length = vocab ++ [(w, vocab.length)] :=
    dictInsert_of_get_none vocab w vocab.length hget
  have hidnew : dictGet inverse_vocab vocab.length = none := by
    rw [dictGet_none_iff, h3, List.map_map]
    have hmm : (Prod.fst ∘ fun p : Wd × Nat => (p.2, p.1)) = Prod.snd := rfl
    rw [hmm, h1]
    simp
  have hi' : dictInsert inverse_vocab vocab.length w =
      inverse_vocab ++ [(vocab.length, w)] :=
    dictInsert_of_get_none inverse_vocab vocab.length w hidnew
  refine ⟨hv', hi', ?_⟩
  rw [hv', hi']
  refine ⟨?_, ?_, ?_⟩
  · rw [List.map_append, h1, List.length_append]
    simp [List.range_succ]
  · rw [List.map_append, List.nodup_append]
    refine ⟨h2, by simp, ?_⟩
    intro a ha hmem
    simp only [List.map_cons, List.map_nil, List.mem_singleton] at hmem
    subst hmem
    rw [dictGet_none_iff] at hget
    exact hget ha
  · rw [List.map_append, h3]
    simp

/-- `encode` leaves the vocabulary, inverse vocabulary, rank table, cap
and target untouched (only the cache can change). -/
theorem encode_tables (t : Tok) (text : List Char) :
    (encode t text).2.vocab = t.vocab ∧
    (encode t text).2.inverse_vocab = t.inverse_vocab ∧
    (encode t text).2.bpe_ranks = t.bpe_ranks ∧
    (encode t text).2.max_vocab_size = t.max_vocab_size := by
  rw [encode]
  split
  · exact ⟨rfl, rfl, rfl, rfl⟩
  · exact ⟨rfl, rfl, rfl, rfl⟩

/-- `get_compression_ratio` likewise touches only the cache. -/
theorem ratio_tables (t : Tok) (text : List Char) :
    (get_compression_ratio t text).2.vocab = t.vocab ∧
    (get_compression_ratio t text).2.inverse_vocab = t.inverse_vocab ∧
    (get_compression_ratio t text).2.bpe_ranks = t.bpe_ranks ∧
    (get_compression_ratio t text).2.max_vocab_size = t.max_vocab_size := by
  rw [get_compression_ratio]
  by_cases h : text.isEmpty
  · rw [if_pos h]
    exact ⟨rfl, rfl, rfl, rfl⟩
  · rw [if_neg h]
    dsimp only
    by_cases h2 : (encode t text).1.isEmpty
    · rw [if_pos h2]
      exact encode_tables t text
    · rw [if_neg h2]
      exact encode_tables t text

/-- `TokInv` only looks at the four table fields. -/
theorem TokInv_of_tables {t t' : Tok} (h : TokInv t) (hv : t'.vocab = t.vocab)
    (hi : t'.inverse_vocab = t.inverse_vocab) (hr : t'.bpe_ranks = t.bpe_ranks)
    (hm : t'.max_vocab_size = t.max_vocab_size) : TokInv t' := by
  rw [TokInv, vocabBij, ranksInv, hv, hi, hr, hm]
  exact h

/-- Invariant carried through the training loop: the live state satisfies
`TokInv` and any recorded snapshot satisfies the same table invariants. -/
def SnapInv (M : Nat) : Option Snapshot → Prop
  | none => True
  | some s => vocabBij s.1 s.2.1 ∧ s.1.length ≤ M ∧ ranksInv s.1 s.2.2

def LoopInv (ls : LoopState) : Prop :=
  TokInv ls.tok ∧ SnapInv ls.tok.max_vocab_size ls.best_state

/-- The insertion branch of the training loop preserves the state
invariant. -/
theorem insert_branch_inv (tok : Tok) (bp : Wd × Wd) (hinv : TokInv tok)
    (hnc : dictContains tok.vocab (bp.1 ++ bp.2) = false)
    (hlt : tok.vocab.length < tok.max_vocab_size) :
    TokInv { tok with
      vocab := dictInsert tok.vocab (bp.1 ++ bp.2) tok.vocab.length
      inverse_vocab := dictInsert tok.inverse_vocab tok.vocab.length (bp.1 ++ bp.2)
      bpe_ranks := dictInsert tok.bpe_ranks bp tok.bpe_ranks.length } := by
  obtain ⟨hb, hle, hr1, hr2⟩ := hinv
  obtain ⟨hv', hi', hb'⟩ := insert_pair_bij hb hnc
  have hrget : dictGet tok.bpe_ranks bp = none := by
    cases hg : dictGet tok.bpe_ranks bp with
    | none => rfl
    | some r =>
      have := hr2 (bp, r) (dictGet_mem hg)
      rw [this] at hnc
      cases hnc
  have hr' : dictInsert tok.bpe_ranks bp tok.bpe_ranks.length =
      tok.bpe_ranks ++ [(bp, tok.bpe_ranks.length)] :=
    dictInsert_of_get_none tok.bpe_ranks bp tok.bpe_ranks.length hrget
  refine ⟨hb', ?_, ?_, ?_⟩
  · rw [hv']
    simp only [List.length_append, List.length_cons, List.length_nil]
    omega
  · rw [hr']
    simp only [List.map_append, List.length_append, List.length_cons, List.length_nil]
    rw [hr1]
    simp [List.range_succ]
  · intro pr hpr
    rw [hr'] at hpr
    rcases List.mem_append.mp hpr with hpr | hpr
    · rw [hv']
      exact dictContains_append (hr2 pr hpr) _
    · rcases List.mem_singleton.mp hpr with rfl
      rw [dictContains, dictGet_dictInsert_self]
      rfl

/-- One training iteration preserves the loop invariant and the cap. -/
theorem trainStep_preserves (ls ls' : LoopState) (h : LoopInv ls)
    (hstep : trainStep ls = some ls') :
    LoopInv ls' ∧ ls'.tok.max_vocab_size = ls.tok.max_vocab_size := by
  obtain ⟨hinv, hsnap⟩ := h
  rw [trainStep] at hstep
  split at hstep
  · rename_i hguard
    split at hstep
    · cases hstep
    · rename_i e hsel
      dsimp only at hstep
      split at hstep
      · rename_i hskip
        cases hstep
        exact ⟨⟨hinv, hsnap⟩, rfl⟩
      · rename_i hins
        push_neg at hins
        obtain ⟨hnc, hlt⟩ := hins
        have hnc' : dictContains ls.tok.vocab (e.1.1 ++ e.1.2) = false := by
          simpa using hnc
        have htok' := insert_branch_inv ls.tok e.1 hinv hnc' hlt
        split at hstep
        · rename_i hmod
          split at hstep
          · cases hstep
            rename_i hcond
            have hrt := ratio_tables
              { ls.tok with
                vocab := dictInsert ls.tok.vocab (e.1.1 ++ e.1.2) ls.tok.vocab.length
                inverse_vocab :=
                  dictInsert ls.tok.inverse_vocab ls.tok.vocab.length (e.1.1 ++ e.1.2)
                bpe_ranks := dictInsert ls.tok.bpe_ranks e.1 ls.tok.bpe_ranks.length }
              (spaceJoin ((List.take 2000 (ls.words.map (fun w =>
                if w.length < 2 then w
                else mergeWord e.1 (e.1.1 ++ e.1.2) w))).map List.flatten))
            refine ⟨⟨TokInv_of_tables htok' hrt.1 hrt.2.1 hrt.2.2.1
              hrt.2.2.2, ?_⟩, ?_⟩
            · rw [SnapInv]
              obtain ⟨hbij', hlen', hrk'⟩ := htok'
              rw [hrt.2.2.2]
              exact ⟨hbij', hlen', hrk'⟩
            · rw [hrt.2.2.2]
          · cases hstep
            have hrt := ratio_tables
              { ls.tok with
                vocab := dictInsert ls.tok.vocab (e.1.1 ++ e.1.2) ls.tok.vocab.length
                inverse_vocab :=
                  dictInsert ls.tok.inverse_vocab ls.tok.vocab.length (e.1.1 ++ e.1.2)
                bpe_ranks := dictInsert ls.tok.bpe_ranks e.1 ls.tok.bpe_ranks.length }
              (spaceJoin ((List.take 2000 (ls.words.map (fun w =>
                if w.length < 2 then w
                else mergeWord e.1 (e.1.1 ++ e.1.2) w))).map List.flatten))
            refine ⟨⟨TokInv_of_tables htok' hrt.1 hrt.2.1 hrt.2.2.1
              hrt.2.2.2, ?_⟩, ?_⟩
            · rw [hrt.2.2.2]
              exact hsnap
            · rw [hrt.2.2.2]
        · cases hstep
          exact ⟨⟨htok', hsnap⟩, rfl⟩
  · cases hstep

theorem trainLoopF_preserves (fuel : Nat) (ls : LoopState) (h : LoopInv ls) :
    LoopInv (trainLoopF fuel ls) ∧
      (trainLoopF fuel ls).tok.max_vocab_size = ls.tok.max_vocab_size := by
  induction fuel generalizing ls with
  | zero => exact ⟨h, rfl⟩
  | succ fuel ih =>
    rw [trainLoopF]
    cases hstep : trainStep ls with
    | none => exact ⟨h, rfl⟩
    | some ls' =>
      obtain ⟨h', hm⟩ := trainStep_preserves ls ls' h hstep
      obtain ⟨h'', hm'⟩ := ih ls' h'
      exact ⟨h'', hm'.trans hm⟩

theorem seedCommon_max (t : Tok) : (seedCommon t).max_vocab_size = t.max_vocab_size := by
  rw [seedCommon]
  refine foldl_preserves (fun s => s.max_vocab_size = t.max_vocab_size) _ ?_ common_words
    t rfl
  intro s w hs
  dsimp only
  split
  · exact hs
  · exact hs

theorem seedFrequent_max (t : Tok) (freqWords : List (Wd × Nat)) :
    (seedFrequent t freqWords).max_vocab_size = t.max_vocab_size := by
  rw [seedFrequent]
  refine foldl_preserves (fun s => s.max_vocab_size = t.max_vocab_size) _ ?_ freqWords
    t rfl
  intro s wf hs
  dsimp only
  split
  · exact hs
  · exact hs

theorem trainFinish_preserves (ls : LoopState) (fuel : Nat) (text : List Char)
    (h : LoopInv ls) :
    TokInv (trainFinish ls fuel text) ∧
      (trainFinish ls fuel text).max_vocab_size = ls.tok.max_vocab_size := by
  obtain ⟨hloop, hloopm⟩ := trainLoopF_preserves fuel ls h
  obtain ⟨hinv, hsnap⟩ := hloop
  rw [trainFinish]
  dsimp only
  cases hbs : (trainLoopF fuel ls).best_state with
  | none =>
    have hrt := ratio_tables (trainLoopF fuel ls).tok text
    exact ⟨TokInv_of_tables hinv hrt.1 hrt.2.1 hrt.2.2.1 hrt.2.2.2,
      hrt.2.2.2.trans hloopm⟩
  | some s =>
    rw [hbs] at hsnap
    obtain ⟨hbij, hlen, hrk⟩ := hsnap
    have ht4 : TokInv { (trainLoopF fuel ls).tok with
        vocab := s.1, inverse_vocab := s.2.1, bpe_ranks := s.2.2 } := by
      refine ⟨hbij, ?_, hrk⟩
      exact hlen
    have hrt := ratio_tables { (trainLoopF fuel ls).tok with
        vocab := s.1, inverse_vocab := s.2.1, bpe_ranks := s.2.2 } text
    exact ⟨TokInv_of_tables ht4 hrt.1 hrt.2.1 hrt.2.2.1 hrt.2.2.2,
      hrt.2.2.2.trans hloopm⟩

theorem trainFinish_preserves_start (t3 : Tok) (words : List (List Wd))
    (word_freqs : List (Wd × Nat)) (pair_stats : List ((Wd × Wd) × Nat)) (fuel : Nat)
    (text : List Char) (ht : TokInv t3) :
    TokInv (trainFinish
      { tok := t3, words := words, word_freqs := word_freqs, pair_stats := pair_stats,
        best_compression := 0, best_state := none } fuel text) ∧
    (trainFinish
      { tok := t3, words := words, word_freqs := word_freqs, pair_stats := pair_stats,
        best_compression := 0, best_state := none } fuel text).max_vocab_size =
      t3.max_vocab_size :=
  trainFinish_preserves _ fuel text ⟨ht, True.intro⟩

theorem train_on_chunk_preserves (t : Tok) (text : List Char) (ht : TokInv t) :
    TokInv (train_on_chunk t text) ∧
      (train_on_chunk t text).max_vocab_size = t.max_vocab_size := by
  rw [train_on_chunk]
  split
  · exact ⟨ht, rfl⟩
  · dsimp only
    have h1 := seedCommon_preserves t ht
    have h1m := seedCommon_max t
    have h2 := seedFrequent_preserves (seedCommon t)
      (mostCommon (counterOf (pySplit text)) ((seedCommon t).max_vocab_size / 10)) h1
    have h2m := seedFrequent_max (seedCommon t)
      (mostCommon (counterOf (pySplit text)) ((seedCommon t).max_vocab_size / 10))
    have h3 : TokInv { seedFrequent (seedCommon t)
        (mostCommon (counterOf (pySplit text)) ((seedCommon t).max_vocab_size / 10)) with
        cache := (tokenizePass (seedFrequent (seedCommon t)
          (mostCommon (counterOf (pySplit text))
            ((seedCommon t).max_vocab_size / 10))).cache
          (seedFrequent (seedCommon t)
            (mostCommon (counterOf (pySplit text))
              ((seedCommon t).max_vocab_size / 10))).vocab (pySplit text)).2 } :=
      TokInv_of_tables h2 rfl rfl rfl rfl
    split
    · exact ⟨h3, h2m.trans h1m⟩
    · split
      · exact ⟨h3, h2m.trans h1m⟩
      · exact ⟨(trainFinish_preserves_start _ _ _ _ _ text h3).1,
          ((trainFinish_preserves_start _ _ _ _ _ text h3).2).trans (h2m.trans h1m)⟩

theorem initTok_vocab (M : Nat) (tc : ℚ) :
    (initTok M tc).vocab =
      [("<PAD>".toList, 0), ("<UNK>".toList, 1), ("<BOS>".toList, 2),
       ("<EOS>".toList, 3), ("▁".toList, 4)] := rfl

theorem initTok_inverse (M : Nat) (tc : ℚ) :
    (initTok M tc).inverse_vocab =
      [(0, "<PAD>".toList), (1, "<UNK>".toList), (2, "<BOS>".toList),
       (3, "<EOS>".toList), (4, "▁".toList)] := rfl

theorem initTok_ranks (M : Nat) (tc : ℚ) : (initTok M tc).bpe_ranks = [] := rfl

theorem initTok_inv (M : Nat) (tc : ℚ) (h5 : 5 ≤ M) : TokInv (initTok M tc) := by
  refine ⟨⟨?_, ?_, ?_⟩, ?_, ?_, ?_⟩
  · rw [initTok_vocab]
    decide
  · rw [initTok_vocab]
    decide
  · rw [initTok_vocab, initTok_inverse]
    decide
  · show (initTok M tc).vocab.length ≤ M
    rw [initTok_vocab]
    simpa using h5
  · rw [initTok_ranks]
    rfl
  · rw [initTok_ranks]
    intro pr hpr
    cases hpr

/-- Every reachable state satisfies the table invariants and keeps the
configured cap. -/
theorem Reach_inv {maxV : Nat} {tc : ℚ} {t : Tok} (h5 : 5 ≤ maxV)
    (hr : Reach maxV tc t) : TokInv t ∧ t.max_vocab_size = maxV := by
  induction hr with
  | init => exact ⟨initTok_inv maxV tc h5, rfl⟩
  | train text t' hr ih =>
    obtain ⟨h1, h2⟩ := train_on_chunk_preserves t' text ih.1
    exact ⟨h1, h2.trans ih.2⟩
  | enc text t' hr ih =>
    have hrt := encode_tables t' text
    exact ⟨TokInv_of_tables ih.1 hrt.1 hrt.2.1 hrt.2.2.1 hrt.2.2.2,
      hrt.2.2.2.trans ih.2⟩
  | ratio text t' hr ih =>
    have hrt := ratio_tables t' text
    exact ⟨TokInv_of_tables ih.1 hrt.1 hrt.2.1 hrt.2.2.1 hrt.2.2.2,
      hrt.2.2.2.trans ih.2⟩

/-- C7: with a cap exceeding the 5 reserved ids, at construction and after
every public mutating call - in particular after every `train_on_chunk` -
the vocabulary is a true bijection between tokens and ids: the ids (in
insertion order) are exactly `0, 1, ..., size - 1` (no duplicates, no
gaps), the tokens are pairwise distinct, the inverse table mirrors the
forward table exactly, and the size never exceeds `max_vocab_size`. -/
theorem C7_vocabulary_bijection (maxV : Nat) (tc : ℚ) (t : Tok) (h5 : 5 < maxV)
    (hr : Reach maxV tc t) :
    t.vocab.map Prod.snd = List.range t.vocab.length ∧
    (t.vocab.map Prod.fst).Nodup ∧
    t.inverse_vocab = t.vocab.map (fun p => (p.2, p.1)) ∧
    t.vocab.length ≤ t.max_vocab_size ∧
    t.max_vocab_size = maxV := by
  obtain ⟨⟨⟨hb1, hb2, hb3⟩, hle, _⟩, hm⟩ := Reach_inv (Nat.le_of_lt h5) hr
  exact ⟨hb1, hb2, hb3, hle, hm⟩

/-- C7 witness: the invariant instantiated at the concrete state reached
by constructing a tokenizer with cap 100 and training once on "कख". -/
theorem C7_vocabulary_bijection_witness :
    (train_on_chunk (initTok 100 (16/5)) "कख".toList).vocab.map Prod.snd =
      List.range (train_on_chunk (initTok 100 (16/5)) "कख".toList).vocab.length ∧
    ((train_on_chunk (initTok 100 (16/5)) "कख".toList).vocab.map Prod.fst).Nodup ∧
    (train_on_chunk (initTok 100 (16/5)) "कख".toList).inverse_vocab =
      (train_on_chunk (initTok 100 (16/5)) "कख".toList).vocab.map
        (fun p => (p.2, p.1)) ∧
    (train_on_chunk (initTok 100 (16/5)) "कख".toList).vocab.length ≤
      (train_on_chunk (initTok 100 (16/5)) "कख".toList).max_vocab_size ∧
    (train_on_chunk (initTok 100 (16/5)) "कख".toList).max_vocab_size = 100 := by
  refine C7_vocabulary_bijection 100 (16/5) _ (by decide) ?_
  exact Reach.train "कख".toList _ Reach.init

/-- C8: at every reachable state of a tokenizer whose cap exceeds the 5
reserved ids, every ranked pair's concatenation is a vocabulary member and
the ranks (in insertion order) are exactly `0, 1, ..., count - 1` - each
new rank being the count of previously accepted merges; and at every
training-loop step, any rank entry present after the step either existed
before it or was recorded at a moment when the pair's concatenation was
not yet a vocabulary member and the vocabulary was strictly below the cap,
with rank equal to the number of previously recorded merges. -/
theorem C8_merge_rank_invariants :
    (∀ (maxV : Nat) (tc : ℚ) (t : Tok), 5 < maxV → Reach maxV tc t →
      t.bpe_ranks.map Prod.snd = List.range t.bpe_ranks.length ∧
      ∀ pr ∈ t.bpe_ranks, dictContains t.vocab (pr.1.1 ++ pr.1.2) = true) ∧
    (∀ ls ls', trainStep ls = some ls' →
      ∀ p r, dictGet ls'.tok.bpe_ranks p = some r →
        dictGet ls.tok.bpe_ranks p = some r ∨
        (dictContains ls.tok.vocab (p.1 ++ p.2) = false ∧
          ls.tok.vocab.length < ls.tok.max_vocab_size ∧
          r = ls.tok.bpe_ranks.length)) := by
  constructor
  · intro maxV tc t h5 hr
    obtain ⟨⟨_, _, hr1, hr2⟩, _⟩ := Reach_inv (Nat.le_of_lt h5) hr
    exact ⟨hr1, hr2⟩
  · intro ls ls' hstep p r hget
    rw [trainStep] at hstep
    split at hstep
    · split at hstep
      · cases hstep
      · rename_i e hsel
        dsimp only at hstep
        split at hstep
        · cases hstep
          exact Or.inl hget
        · rename_i hins
          push_neg at hins
          obtain ⟨hnc, hlt⟩ := hins
          have hnc' : dictContains ls.tok.vocab (e.1.1 ++ e.1.2) = false := by
            simpa using hnc
          have hkey : ∀ tk : Tok, tk.bpe_ranks =
              dictInsert ls.tok.bpe_ranks e.1 ls.tok.bpe_ranks.length →
              dictGet tk.bpe_ranks p = some r →
              dictGet ls.tok.bpe_ranks p = some r ∨
              (dictContains ls.tok.vocab (p.1 ++ p.2) = false ∧
                ls.tok.vocab.length < ls.tok.max_vocab_size ∧
                r = ls.tok.bpe_ranks.length) := by
            intro tk htk hg
            rw [htk] at hg
            by_cases hp : p = e.1
            · subst hp
              rw [dictGet_dictInsert_self] at hg
              cases hg
              exact Or.inr ⟨hnc', hlt, rfl⟩
            · rw [dictGet_dictInsert_ne _ _ _ _ hp] at hg
              exact Or.inl hg
          split at hstep
          · split at hstep
            · cases hstep
              refine hkey _ ?_ hget
              exact (ratio_tables _ _).2.2.1
            · cases hstep
              refine hkey _ ?_ hget
              exact (ratio_tables _ _).2.2.1
          · cases hstep
            exact hkey _ rfl hget
    · cases hstep

/-- C8 witness: the rank-table invariant at the concrete state reached by
training once on "कख कग" with cap 100. -/
theorem C8_merge_rank_invariants_witness :
    (train_on_chunk (initTok 100 (16/5)) "कख कग".toList).bpe_ranks.map Prod.snd =
      List.range (train_on_chunk (initTok 100 (16/5)) "कख कग".toList).bpe_ranks.length ∧
    ∀ pr ∈ (train_on_chunk (initTok 100 (16/5)) "कख कग".toList).bpe_ranks,
      dictContains (train_on_chunk (initTok 100 (16/5)) "कख कग".toList).vocab
        (pr.1.1 ++ pr.1.2) = true :=
  C8_merge_rank_invariants.1 100 (16/5) _ (by decide) (Reach.train "कख कग".toList _ Reach.init)

end HindiBPE
